import Mathlib

/-!
Verification of the constitutional-record subsystem (promotion, hash chain,
access gates, leases) against its Python sources under `src/skill/scripts/`.
Python strings are modelled as Lean `String` (lists of characters); the
filesystem is an association list from path to content; SHA-256 is kept
abstract as a parameter `H : String → String` since every property of
interest is independent of the concrete digest function.  Scripts that
perform writes additionally return a trace of filesystem events so that
atomicity (write-temp-then-rename) claims can be stated.
-/

namespace Slices

/-! ## Python string primitives -/

/-- Whitespace characters recognised by Python's `str.strip()` (ASCII part). -/
def pyWs : List Char := [' ', '\t', '\n', '\r', '\x0b', '\x0c']

def isWs (c : Char) : Bool := pyWs.contains c

def dropLeadingBy (p : Char → Bool) : List Char → List Char
  | [] => []
  | c :: cs => if p c then dropLeadingBy p cs else c :: cs

/-- `str.strip()` on a character list: drop leading and trailing whitespace. -/
def stripL (cs : List Char) : List Char :=
  (dropLeadingBy isWs (dropLeadingBy isWs cs.reverse).reverse)

/-- Python `str.strip()`. -/
def pyStrip (s : String) : String := ⟨stripL s.data⟩

/-- Python `str.strip(c)` for a single character argument. -/
def stripChar (c : Char) (s : String) : String :=
  ⟨dropLeadingBy (· == c) (dropLeadingBy (· == c) s.data.reverse).reverse⟩

/-- `.strip('"').strip("'")` as used on header field values. -/
def stripQuotes (s : String) : String := stripChar '\'' (stripChar '"' s)

/-- Python `str.lower()` (character-wise, ASCII range). -/
def pyLower (s : String) : String := ⟨s.data.map Char.toLower⟩

/-- Does `pat` occur at the start of `text`? -/
def isPreL (pat text : List Char) : Bool :=
  match pat, text with
  | [], _ => true
  | _ :: _, [] => false
  | p :: ps, t :: ts => p == t && isPreL ps ts

/-- Index of the first occurrence of `pat` in `text` (Python `str.find`). -/
def findIdx (pat : List Char) : List Char → Option Nat
  | [] => if pat.isEmpty then some 0 else none
  | c :: cs =>
    if isPreL pat (c :: cs) then some 0
    else (findIdx pat cs).map (· + 1)

/-- Python `text.find(pat, start)` (as an `Option`; Python returns -1). -/
def findFrom (pat text : List Char) (start : Nat) : Option Nat :=
  (findIdx pat (text.drop start)).map (· + start)

/-- Python `pat in text` substring test. -/
def containsSub (pat text : String) : Bool := (findIdx pat.data text.data).isSome

/-- Split a character list at every newline (auxiliary for `splitlines`). -/
def splitNl : List Char → List (List Char)
  | [] => [[]]
  | c :: cs =>
    if c == '\n' then [] :: splitNl cs
    else
      match splitNl cs with
      | l :: ls => (c :: l) :: ls
      | [] => [[c]]

/-- Python `str.splitlines()` for `\n`-delimited text (the only line
terminator this subsystem ever writes or reads). -/
def splitlines (s : String) : List String :=
  if s.data.isEmpty then []
  else
    let parts := splitNl s.data
    let parts := if s.data.getLast? == some '\n' then parts.dropLast else parts
    parts.map (fun l => ⟨l⟩)

/-- `"\n".join(lines)`. -/
def joinNl : List String → String
  | [] => ""
  | [l] => l
  | l :: rest => l ++ "\n" ++ joinNl rest

/-! ## Python `dict` (insertion ordered) -/

/-- A Python `dict[str, str]`: association list in insertion order. -/
abbrev Dict := List (String × String)

def dictGet? : Dict → String → Option String
  | [], _ => none
  | (k', v) :: rest, k => if k' = k then some v else dictGet? rest k

def dictGetD (d : Dict) (k dflt : String) : String := (dictGet? d k).getD dflt

def dictMem (d : Dict) (k : String) : Bool := (dictGet? d k).isSome

/-- `d[k] = v`: replace in place when the key exists, append otherwise. -/
def dictSet : Dict → String → String → Dict
  | [], k, v => [(k, v)]
  | (k', v') :: rest, k, v =>
    if k' == k then (k', v) :: rest else (k', v') :: dictSet rest k v

/-- `del d[k]` (guarded by `if k in d` at all call sites, so removal of a
missing key is a no-op here as there). -/
def dictDel (d : Dict) (k : String) : Dict := d.filter (fun p => p.1 ≠ k)

/-! ## Record codec (`parse_frontmatter`, `parse_map`, `write_map`)
from `promote_article.py` (shared verbatim by the other scripts). -/

/-- `parse_frontmatter(text) -> (prefix, frontmatter, body)`. -/
def parseFrontmatter (text : String) : String × String × String :=
  let cs := text.data
  if isPreL "---\n".data cs then
    match findFrom "\n---\n".data cs 4 with
    | none => ("", "", text)
    | some second =>
      ("---\n", ⟨(cs.drop 4).take (second - 4)⟩, ⟨cs.drop (second + 5)⟩)
  else ("", "", text)

/-- One step of `parse_map`'s loop over frontmatter lines. -/
def parseMapStep (acc : Dict × List String) (line : String) : Dict × List String :=
  match findIdx [':'] line.data with
  | none => acc
  | some i =>
    let key := pyStrip ⟨line.data.take i⟩
    let value := pyStrip ⟨line.data.drop (i + 1)⟩
    let order := if acc.2.contains key then acc.2 else acc.2 ++ [key]
    (dictSet acc.1 key value, order)

/-- `parse_map(frontmatter) -> (mapping, order)`. -/
def parseMap (fm : String) : Dict × List String :=
  (splitlines fm).foldl parseMapStep ([], [])

/-- A header key as `parse_map` produces it: whitespace-stripped, free of
the colon separator and of newlines. -/
def CleanKey (k : String) : Prop :=
  stripL k.data = k.data ∧ ':' ∉ k.data ∧ '\n' ∉ k.data

/-- A header value as `parse_map` produces it. -/
def CleanVal (v : String) : Prop :=
  stripL v.data = v.data ∧ '\n' ∉ v.data

def CleanPair (kv : String × String) : Prop := CleanKey kv.1 ∧ CleanVal kv.2

/-- The joint state invariant of `parse_map`'s two results: the mapping's
key sequence is exactly the order list, keys are unique, and every entry
is clean. -/
def MapInv (m : Dict) (o : List String) : Prop :=
  m.map Prod.fst = o ∧ o.Nodup ∧ ∀ kv ∈ m, CleanPair kv

/-- One serialised header line, `f"{k}: {mapping[k]}"`. -/
def lineOf (kv : String × String) : String := kv.1 ++ ": " ++ kv.2

/-- The header lines emitted by `promote_article.write_map`:
`[f"{k}: {mapping[k]}" for k in order if k in mapping]`. -/
def serializeHeaderLines (mapping : Dict) (order : List String) : List String :=
  (order.filter (fun k => dictMem mapping k)).map
    (fun k => lineOf (k, dictGetD mapping k ""))

/-- The text written by `promote_article.write_map` (keys not in `order`
are silently dropped). -/
def writeMapContent (pre body : String) (mapping : Dict) (order : List String) : String :=
  pre ++ joinNl (serializeHeaderLines mapping order) ++ "\n---\n" ++ body

/-- The text written by `promote_founding.write_map`: keys in `order` first,
then mapping entries whose key is not in `order`, appended at the end. -/
def writeMapFoundingContent (pre body : String) (mapping : Dict) (order : List String) : String :=
  let extra := (mapping.filter (fun p => ¬ order.contains p.1)).map lineOf
  pre ++ joinNl (serializeHeaderLines mapping order ++ extra) ++ "\n---\n" ++ body

/-! ## Path helpers (`pathlib.Path` fragment: `name`, `suffix`, `with_suffix`)
Paths are repo-root-relative POSIX strings. -/

/-- Index of the last occurrence of `c` in `cs`. -/
def lastIdxOf (c : Char) (cs : List Char) : Option Nat :=
  (findIdx [c] cs.reverse).map (fun i => cs.length - 1 - i)

/-- Split a path into (directory part including trailing slash, final name). -/
def pathSplit (p : String) : String × String :=
  match lastIdxOf '/' p.data with
  | none => ("", p)
  | some i => (⟨p.data.take (i + 1)⟩, ⟨p.data.drop (i + 1)⟩)

/-- `Path(p).name`. -/
def pathName (p : String) : String := (pathSplit p).2

/-- Index where `Path.suffix` starts within a file name: the last dot,
provided it is neither the first nor the last character. -/
def nameSuffixIdx (name : String) : Option Nat :=
  match lastIdxOf '.' name.data with
  | none => none
  | some i => if 0 < i ∧ i + 1 < name.data.length then some i else none

/-- `Path(p).suffix`. -/
def pathSuffix (p : String) : String :=
  let name := pathName p
  match nameSuffixIdx name with
  | none => ""
  | some i => ⟨name.data.drop i⟩

/-- `Path(p).with_suffix(suffix)`. -/
def withSuffix (p suffix : String) : String :=
  let d := (pathSplit p).1
  let name := pathName p
  match nameSuffixIdx name with
  | none => d ++ name ++ suffix
  | some i => d ++ (⟨name.data.take i⟩ : String) ++ suffix

/-! ## Filesystem model and event traces -/

/-- The filesystem: an association list from (repo-relative) path to file
content.  Lookup/update semantics mirror `Dict`. -/
abbrev FS := List (String × String)

def fsRead? (fs : FS) (p : String) : Option String := dictGet? fs p

def fsExists (fs : FS) (p : String) : Bool := dictMem fs p

def fsWrite (fs : FS) (p c : String) : FS := dictSet fs p c

def fsRemove (fs : FS) (p : String) : FS := dictDel fs p

/-- `src.rename(dst)`: move the entry (no-op when `src` is absent). -/
def fsRename (fs : FS) (src dst : String) : FS :=
  match fsRead? fs src with
  | none => fs
  | some c => fsWrite (fsRemove fs src) dst c

/-- One observable filesystem mutation, for atomicity claims. -/
inductive FsEvent
  | write (path content : String)
  | rename (src dst : String)
  | unlink (path : String)
deriving DecidableEq, Repr

/-! ## `promote_article.py` -/

def lawActivePath : String := ".constitution/LAW.✅"

def lawResolvingPath : String := ".constitution/LAW.⏳"

/-- Outcome of a script run: success carries the final filesystem, the
event trace and the printed line; an uncaught exception carries the
message together with the filesystem and trace at the moment of raising. -/
inductive RunResult
  | ok (fs : FS) (trace : List FsEvent) (output : String)
  | err (msg : String) (fs : FS) (trace : List FsEvent)
deriving DecidableEq, Repr

def RunResult.isOk : RunResult → Bool
  | .ok .. => true
  | .err .. => false

/-- The filesystem after the run (also for a raised error). -/
def RunResult.fsOf : RunResult → FS
  | .ok fs _ _ => fs
  | .err _ fs _ => fs

/-- The filesystem events the run performed. -/
def RunResult.traceOf : RunResult → List FsEvent
  | .ok _ t _ => t
  | .err _ _ t => t

/-- `normalized_body_hash(body)`, with SHA-256 abstracted as `H`. -/
def normalizedBodyHash (H : String → String) (body : String) : String :=
  H (pyStrip body)

/-- The law content produced by `mark_law_stale` just before the
active→resolving rename: stale fields set in the map, `status` removed,
then serialised through `promote_article.write_map`. -/
def staleLawContent (lawText acceptedRel : String) : String :=
  let pf := parseFrontmatter lawText
  let pm := parseMap pf.2.1
  let mapping := dictSet pm.1 "stale_reason" "amendment_accepted"
  let mapping := dictSet mapping "stale_amendment_path" ("\"" ++ acceptedRel ++ "\"")
  let mapping := dictDel mapping "status"
  writeMapContent pf.1 pf.2.2 mapping (pm.2.erase "status")

/-- `mark_law_stale(repo_root, accepted_amendment_relative)`. -/
def markLawStale (fs : FS) (trace : List FsEvent) (acceptedRel : String) :
    FS × List FsEvent :=
  match fsRead? fs lawActivePath with
  | none => (fs, trace)
  | some text =>
    if (parseFrontmatter text).1 = "" then (fs, trace)
    else
      let content := staleLawContent text acceptedRel
      let fs1 := fsWrite fs lawActivePath content
      let trace1 := trace ++ [FsEvent.write lawActivePath content]
      let fs2 := fsRename fs1 lawActivePath lawResolvingPath
      (fs2, trace1 ++ [FsEvent.rename lawActivePath lawResolvingPath])

/-- `promote_article.main()` for article path `p` (already repo-relative,
as produced by `normalize_amendment_path`). -/
def promoteArticleMain (H : String → String) (fs : FS) (p : String) : RunResult :=
  let accepted := withSuffix p ".✅"
  if fsExists fs accepted then
    .ok fs [] ("promoted_amendment=" ++ accepted)
  else if !fsExists fs p then
    .err ("Amendment not found: " ++ p) fs []
  else if pathSuffix p ≠ ".📝" then
    .err "Promotion requires a draft amendment with .📝 suffix" fs []
  else
    let text := (fsRead? fs p).getD ""
    let pf := parseFrontmatter text
    if pf.1 = "" then
      .err "Draft amendment must include frontmatter." fs []
    else
      let mapping := (parseMap pf.2.1).1
      let order := (parseMap pf.2.1).2
      let status := pyLower (stripQuotes (dictGetD mapping "status" ""))
      if status ≠ "review" then
        .err "Draft amendment status must be 'review' before promotion." fs []
      else
        let applyOkAt := stripQuotes (dictGetD mapping "apply_ok_at" "")
        let expectedHash := normalizedBodyHash H pf.2.2
        if applyOkAt ≠ expectedHash then
          .err "Draft amendment apply_ok_at must match the current trimmed body hash before promotion." fs []
        else
          let mapping1 := dictDel (dictDel mapping "status") "evaluation_started_at"
          let order1 := (order.erase "status").erase "evaluation_started_at"
          let content := writeMapContent pf.1 pf.2.2 mapping1 order1
          let fs1 := fsWrite fs p content
          let fs2 := fsRename fs1 p accepted
          let t2 : List FsEvent := [.write p content, .rename p accepted]
          -- post-rename ghost cleanup: the sequential model leaves no
          -- ghost `.📝` file, so the `unlink` branch is never taken
          let fst3 := markLawStale fs2 t2 accepted
          .ok fst3.1 fst3.2 ("promoted_amendment=" ++ accepted)

/-! ## `promote_founding.py` -/

def foundingAcceptedPath : String := ".constitution/amendments/.founding.✅"

def foundingReviewPath : String := ".constitution/amendments/.founding.⏳"

def foundingDraftPath : String := ".constitution/amendments/.founding.📝"

/-- `discover_founding(root)`: first existing among accepted/review/draft. -/
def discoverFounding (fs : FS) : Option (String × String) :=
  if fsExists fs foundingAcceptedPath then some (foundingAcceptedPath, "founding")
  else if fsExists fs foundingReviewPath then some (foundingReviewPath, "review")
  else if fsExists fs foundingDraftPath then some (foundingDraftPath, "draft")
  else none

/-- `promote_founding.main()`. -/
def promoteFoundingMain (H : String → String) (fs : FS) : RunResult :=
  match discoverFounding fs with
  | none => .err "No founding document found." fs []
  | some (foundingPath, st) =>
    if st = "founding" then
      .err "Founding document is already accepted (.founding.✅)." fs []
    else if st ≠ "review" then
      .err "Founding document must be in review state (.founding.⏳)" fs []
    else
      let text := (fsRead? fs foundingPath).getD ""
      let pf := parseFrontmatter text
      if pf.1 = "" then
        .err "Founding document must include frontmatter." fs []
      else
        let mapping := (parseMap pf.2.1).1
        let order := (parseMap pf.2.1).2
        let applyOkAt := stripQuotes (dictGetD mapping "apply_ok_at" "")
        let expectedHash := H (pyStrip pf.2.2)
        if applyOkAt ≠ expectedHash then
          .err "Founding document apply_ok_at must match the current trimmed body hash before promotion." fs []
        else
          let transient := ["needs_input_reason_code", "needs_input_request",
            "status", "apply_ok_at", "evaluation_started_at"]
          let mapping1 := transient.foldl dictDel mapping
          let order1 := transient.foldl List.erase order
          let content := writeMapFoundingContent pf.1 pf.2.2 mapping1 order1
          let fs1 := fsWrite fs foundingPath content
          let fs2 := fsRename fs1 foundingPath foundingAcceptedPath
          .ok fs2 [.write foundingPath content,
              .rename foundingPath foundingAcceptedPath]
            ("promoted_founding=" ++ foundingAcceptedPath)

/-! ## Derived views of a record text, used in theorem statements. -/

/-- The parsed header map of a record text (promotion codec). -/
def headerOf (text : String) : Dict := (parseMap (parseFrontmatter text).2.1).1

/-- The header key order of a record text (promotion codec). -/
def headerOrderOf (text : String) : List String := (parseMap (parseFrontmatter text).2.1).2

/-- The body of a record text. -/
def bodyOf (text : String) : String := (parseFrontmatter text).2.2

/-- The normalised `status` field exactly as `promote_article.main`
extracts it: quote-stripped, lowercased, empty when absent. -/
def statusOf (text : String) : String :=
  pyLower (stripQuotes (dictGetD (headerOf text) "status" ""))

/-- The quote-stripped `apply_ok_at` field, empty when absent. -/
def applyOkAtOf (text : String) : String :=
  stripQuotes (dictGetD (headerOf text) "apply_ok_at" "")

/-! ## Hash Chain (`compute_amendments_hash` / `extract_body_without_frontmatter`
from `constitutional_paths.py`).  A record enumeration is a list of
`(relativePath, fileText)` pairs; the digest is `H` applied to the byte
stream the Python feeds into `hashlib.sha256`. -/

/-- `extract_body_without_frontmatter(text)`. -/
def extractBodyWithoutFrontmatter (text : String) : String :=
  let cs := text.data
  if isPreL "---\n".data cs then
    match findFrom "\n---\n".data cs 4 with
    | none => pyStrip text
    | some second => pyStrip ⟨cs.drop (second + 5)⟩
  else pyStrip text

/-- The bytes one record contributes to the digest:
`"FILE:" + relativePath + "\n"`, the stripped body, then `"\n\x1e\n"`. -/
def hashBlock (rel text : String) : String :=
  "FILE:" ++ rel ++ "\n" ++ extractBodyWithoutFrontmatter text ++ "\n\x1e\n"

/-- Concatenated digest input of an (already ordered) record list. -/
def blocksConcat (records : List (String × String)) : String :=
  String.join (records.map (fun r => hashBlock r.1 r.2))

/-- `sorted(...)` over paths: the fold order of `compute_amendments_hash`. -/
def sortRecords (records : List (String × String)) : List (String × String) :=
  records.insertionSort (fun a b => a.1 ≤ b.1)

/-- The full digest input stream of an unordered record enumeration. -/
def hashStream (records : List (String × String)) : String :=
  blocksConcat (sortRecords records)

/-- `compute_amendments_hash` over the accepted-amendment enumeration,
with SHA-256 abstracted as `H`. -/
def amendmentsDigest (H : String → String) (records : List (String × String)) : String :=
  H (hashStream records)

/-! ## `verify_kernel_hash.py`: the active-law verification branch. -/

/-- `read_frontmatter(path)` once the file text is in hand: total on
strings, returns an empty map for an absent or unterminated header. -/
def readFrontmatterVK (text : String) : Dict :=
  let pf := parseFrontmatter text
  if pf.1 = "" then []
  else
    (splitlines pf.2.1).foldl
      (fun acc line =>
        match findIdx [':'] line.data with
        | none => acc
        | some i =>
          dictSet acc (pyStrip ⟨line.data.take i⟩)
            (stripQuotes (pyStrip ⟨line.data.drop (i + 1)⟩)))
      []

def lawCorruptedPath : String := ".constitution/LAW.❌"

/-- Outcome of `verify_kernel_hash.main` when the law is in the `active`
decoration. -/
inductive VerifyOutcome
  | pass
  | hashMismatch (inLaw : Option String) (current : String)
  | corruptedRenamed
deriving DecidableEq, Repr

/-- The `state == active` tail of `verify_kernel_hash.main`: `read?` is
`none` exactly when `read_frontmatter` raises (unreadable bytes); any
decoded text is handled without raising.  Returns the reported outcome
and the filesystem events performed. -/
def verifyActiveLaw (read? : Option String) (currentHash : String) :
    VerifyOutcome × List FsEvent :=
  match read? with
  | none => (.corruptedRenamed, [.rename lawActivePath lawCorruptedPath])
  | some text =>
    let data := readFrontmatterVK text
    match dictGet? data "amendments_hash" with
    | some stored =>
      if stored = currentHash then (.pass, [])
      else (.hashMismatch (some stored) currentHash, [])
    | none => (.hashMismatch none currentHash, [])

/-! ## `hook_pre_tool_use.py`: the LAW-file token gate. -/

/-- The `.runtime.json` ledger: conversation-id → token bindings plus the
queue of pre-minted one-shot tokens. -/
structure Runtime where
  authorized : List (String × String)
  pending : List String
deriving DecidableEq, Repr

inductive GateDecision
  | allow
  | deny (reason : String)
deriving DecidableEq, Repr

def GateDecision.isAllow : GateDecision → Bool
  | .allow => true
  | .deny _ => false

/-- The LAW-target branch of `hook_pre_tool_use.main`.  `ledger` is
`none` when `.runtime.json` is missing, `some none` when it exists but
cannot be parsed, `some (some r)` when readable.  Returns the decision
and the ledger state afterwards. -/
def lawGate (ledger : Option (Option Runtime)) (conversationId : String) :
    GateDecision × Option Runtime :=
  match ledger with
  | none =>
    (.deny "Constitutional law: LAW files are derived artifacts. No authorization token found (.runtime.json missing).", none)
  | some none =>
    (.deny "Constitutional law: LAW files are derived artifacts. Authorization state unreadable.", none)
  | some (some r) =>
    if conversationId ≠ "" ∧ dictMem r.authorized conversationId then
      (.allow, some r)
    else
      match r.pending with
      | token :: rest =>
        if conversationId ≠ "" then
          (.allow, some ⟨dictSet r.authorized conversationId token, rest⟩)
        else
          (.deny "Constitutional law: LAW files are derived artifacts managed by constitutional scripts. Direct edits are not permitted.", some r)
      | [] =>
        (.deny "Constitutional law: LAW files are derived artifacts managed by constitutional scripts. Direct edits are not permitted.", some r)

/-! ## `hook_stop_inject_stale_law.py`: frontmatter leases. -/

/-- One line of that script's `parse_frontmatter` loop: values are
quote-stripped here, unlike in the promotion codec. -/
def hsParseLine (acc : Dict) (line : String) : Dict :=
  match findIdx [':'] line.data with
  | none => acc
  | some i =>
    dictSet acc (pyStrip ⟨line.data.take i⟩)
      (stripQuotes (pyStrip ⟨line.data.drop (i + 1)⟩))

/-- `parse_frontmatter(path)` of `hook_stop_inject_stale_law.py`. -/
def parseFrontmatterHS (text : String) : Dict × String :=
  let cs := text.data
  if isPreL "---\n".data cs then
    match findFrom "\n---\n".data cs 4 with
    | none => ([], pyStrip text)
    | some second =>
      let fm : String := ⟨(cs.drop 4).take (second - 4)⟩
      let body := pyStrip ⟨cs.drop (second + 5)⟩
      ((splitlines fm).foldl hsParseLine [], body)
  else ([], pyStrip text)

/-- `read_frontmatter_field(path, field_name)`. -/
def readFrontmatterField (text field : String) : Option String :=
  dictGet? (parseFrontmatterHS text).1 field

/-- The key under which `write_frontmatter_field`'s loop (and
`parse_frontmatter`) files a header line: the stripped text before the
first colon, `none` when the line has no colon. -/
def lineKey (line : String) : Option String :=
  match findIdx [':'] line.data with
  | none => none
  | some i => some (pyStrip ⟨line.data.take i⟩)

/-- One line of `write_frontmatter_field`'s loop: keep the line, or —
when its key is `field` — replace it (or drop it when `value? = none`)
and record that the field was found. -/
def rewriteFieldStep (field : String) (value? : Option String)
    (acc : List String × Bool) (line : String) : List String × Bool :=
  match findIdx [':'] line.data with
  | some i =>
    if pyStrip ⟨line.data.take i⟩ = field then
      match value? with
      | some v => (acc.1 ++ [field ++ ": " ++ v], true)
      | none => (acc.1, true)
    else (acc.1 ++ [line], acc.2)
  | none => (acc.1 ++ [line], acc.2)

/-- The line rewriting of `write_frontmatter_field`: keep every line,
replace (or drop, when `value? = none`) the lines keyed `field`, append
a new `field: value` line when none was found. -/
def rewriteFieldLines (lines : List String) (field : String) (value? : Option String) :
    List String :=
  let res := lines.foldl (rewriteFieldStep field value?) ([], false)
  match value?, res.2 with
  | some v, false => res.1 ++ [field ++ ": " ++ v]
  | _, _ => res.1

/-- `write_frontmatter_field(path, field_name, value)`: returns the new
file content and the event trace (write to the `.tmp` sibling, then
rename over the record); a file without a well-formed header is left
untouched with no events. -/
def writeFrontmatterField (path text field : String) (value? : Option String) :
    String × List FsEvent :=
  let cs := text.data
  if isPreL "---\n".data cs then
    match findFrom "\n---\n".data cs 4 with
    | none => (text, [])
    | some second =>
      let fm : String := ⟨(cs.drop 4).take (second - 4)⟩
      let rest : String := ⟨cs.drop second⟩
      let updated := "---\n" ++ joinNl (rewriteFieldLines (splitlines fm) field value?) ++ rest
      let tmp := withSuffix path ".tmp"
      (updated, [.write tmp updated, .rename tmp path])
  else (text, [])

def lockTimeoutSeconds : Int := 300

inductive LockState
  | available
  | locked
  | stale
deriving DecidableEq, Repr

/-- `check_lock(path, field_name, timeout)`; `parseTime` stands for
`datetime.fromisoformat` (`none` = raises) and `now` for the current
time in seconds. -/
def checkLock (parseTime : String → Option Int) (now : Int)
    (content? : Option String) (field : String)
    (timeout : Int := lockTimeoutSeconds) : LockState :=
  match content? with
  | none => .available
  | some text =>
    match readFrontmatterField text field with
    | none => .available
    | some v =>
      if v = "" then .available
      else
        match parseTime v with
        | none => .available
        | some startedAt =>
          if now - startedAt ≥ timeout then .stale else .locked

/-- `_now_iso()`: the quoted current timestamp, with the ISO rendering
abstracted as `isoOf`. -/
def nowIso (isoOf : Int → String) (now : Int) : String :=
  "\"" ++ isoOf now ++ "\""

inductive AcquireResult
  | acquired
  | foreignActive
  | reclaimed
deriving DecidableEq, Repr

/-- The lease acquisition step performed by `hook_stop_inject_stale_law.main`
around one lock field: back off on `locked`, clear first on `stale`,
then write the current timestamp.  Returns the result the caller
branches on, the record's new content, and the event trace. -/
def tryAcquire (parseTime : String → Option Int) (isoOf : Int → String) (now : Int)
    (path text field : String) : AcquireResult × String × List FsEvent :=
  match checkLock parseTime now (some text) field with
  | .locked => (.foreignActive, text, [])
  | .available =>
    let w := writeFrontmatterField path text field (some (nowIso isoOf now))
    (.acquired, w.1, w.2)
  | .stale =>
    let w1 := writeFrontmatterField path text field none
    let w2 := writeFrontmatterField path w1.1 field (some (nowIso isoOf now))
    (.reclaimed, w2.1, w1.2 ++ w2.2)

/-! ## `hook_before_shell_execution.py`: the shell Access Gate. -/

/-- Whitespace recognised by `shlex`. -/
def shWs (c : Char) : Bool := c == ' ' || c == '\t' || c == '\r' || c == '\n'

inductive ShMode
  | normal
  | single
  | double
deriving DecidableEq, Repr

/-- Worker for `shlex.split` (POSIX mode) on the shell fragment these
hooks receive: whitespace separation, single/double quotes, backslash
escapes.  `none` models the `ValueError` raised on unbalanced quoting or
a dangling escape. -/
def shlexRun : List Char → ShMode → Option (List Char) → List String →
    Option (List String)
  | [], .normal, cur, acc =>
    some (match cur with | none => acc | some tok => acc ++ [⟨tok⟩])
  | [], .single, _, _ => none
  | [], .double, _, _ => none
  | c :: rest, .normal, cur, acc =>
    if shWs c then
      match cur with
      | none => shlexRun rest .normal none acc
      | some tok => shlexRun rest .normal none (acc ++ [⟨tok⟩])
    else if c == '\'' then shlexRun rest .single (some (cur.getD [])) acc
    else if c == '"' then shlexRun rest .double (some (cur.getD [])) acc
    else if c == '\\' then
      match rest with
      | [] => none
      | d :: rest' => shlexRun rest' .normal (some (cur.getD [] ++ [d])) acc
    else shlexRun rest .normal (some (cur.getD [] ++ [c])) acc
  | c :: rest, .single, cur, acc =>
    if c == '\'' then shlexRun rest .normal cur acc
    else shlexRun rest .single (some (cur.getD [] ++ [c])) acc
  | c :: rest, .double, cur, acc =>
    if c == '"' then shlexRun rest .normal cur acc
    else if c == '\\' then
      match rest with
      | [] => none
      | d :: rest' =>
        if d == '"' || d == '\\' then
          shlexRun rest' .double (some (cur.getD [] ++ [d])) acc
        else
          shlexRun rest' .double (some (cur.getD [] ++ ['\\', d])) acc
    else shlexRun rest .double (some (cur.getD [] ++ [c])) acc

/-- `shlex.split(command)`. -/
def shlexSplit (s : String) : Option (List String) :=
  shlexRun s.data .normal none []

def readOnlyBinaries : List String := ["ls", "rg", "grep", "cat", "head", "tail", "wc", "stat"]

/-- `is_read_only_command(command)`. -/
def isReadOnlyCommand (command : String) : Bool :=
  if containsSub ">" command || containsSub ">>" command || containsSub "|" command then
    false
  else
    match shlexSplit command with
    | none => false
    | some tokens =>
      match tokens with
      | [] => true
      | t0 :: _ => readOnlyBinaries.contains (pathName t0)

def promotionScriptNames : List String :=
  ["promote_article.py", "stamp_apply_ok_at.py", "apply_suitability_result.py",
   "promote_founding.py", "apply_founding_result.py", "sync_article_hash.py",
   "verify_kernel_hash.py"]

def pythonLaunchers : List String := ["python", "python3", "uv", "uvx"]

/-- `is_promotion_script_command(command)`. -/
def isPromotionScriptCommand (command : String) : Bool :=
  match shlexSplit command with
  | none => false
  | some tokens =>
    if tokens.length < 2 then false
    else
      match tokens with
      | [] => false
      | t0 :: rest =>
        pythonLaunchers.contains (pathName t0) &&
        rest.any (fun token => promotionScriptNames.any (fun name => containsSub name token))

def isDigitChar (c : Char) : Bool := '0' ≤ c && c ≤ '9'

/-- `AMENDMENT_STATUS_PATTERN.match(name)`:
`^(?:(✅|📝) )?(\d{14})$` → (timestamp, state). -/
def parseAmendmentStatus (name : String) : Option (String × String) :=
  let isTs := fun (l : List Char) => l.length == 14 && l.all isDigitChar
  if isPreL "✅ ".data name.data then
    let ts := name.data.drop 2
    if isTs ts then some (⟨ts⟩, "✅") else none
  else if isPreL "📝 ".data name.data then
    let ts := name.data.drop 2
    if isTs ts then some (⟨ts⟩, "📝") else none
  else if isTs name.data then some (name, "") else none

/-- `normalize_path(root, path_like)`: absolute paths kept, relative ones
joined onto the workspace root (`root` is taken pre-resolved). -/
def normalizePathSh (root p : String) : String :=
  if isPreL "/".data p.data then p else root ++ "/" ++ p

/-- `p.relative_to(dir)` succeeds: `p` equals `dir` or lies beneath it. -/
def underDir (dir p : String) : Bool :=
  p == dir || isPreL (dir ++ "/").data p.data

/-- `is_status_only_amendment_rename(command, root)`. -/
def isStatusOnlyAmendmentRename (root command : String) : Bool :=
  match shlexSplit command with
  | none => false
  | some tokens =>
    match tokens with
    | [t0, t1, t2] =>
      if pathName t0 ≠ "mv" then false
      else
        let src := normalizePathSh root t1
        let dst := normalizePathSh root t2
        let amendmentsDir := root ++ "/.constitution/amendments"
        if !(underDir amendmentsDir src && underDir amendmentsDir dst) then false
        else
          match parseAmendmentStatus (pathName src), parseAmendmentStatus (pathName dst) with
          | some (srcTs, srcState), some (dstTs, dstState) =>
            srcTs == dstTs && srcState == "" && dstState == "📝"
          | _, _ => false
    | _ => false

def mutatingVerbs : List String :=
  ["rm", "mv", "cp", "touch", "sed", "perl", "tee", "truncate", "dd", "ln", "chmod", "chown", "git"]

/-- `\w` for the ASCII alphabet these verbs and their neighbours use. -/
def isWordChar (c : Char) : Bool := c.isAlphanum || c == '_'

/-- Does `v` occur in `text` with `\b` word boundaries on both sides,
`prev` being the character just before `text`? -/
def wbSearch (v : List Char) : List Char → Option Char → Bool
  | [], _ => false
  | c :: cs, prev =>
    (isPreL v (c :: cs)
      && (match prev with | none => true | some b => !isWordChar b)
      && (match (c :: cs).drop v.length with
          | [] => true
          | d :: _ => !isWordChar d))
    || wbSearch v cs (some c)

/-- `MUTATING_TOKEN_PATTERN.search(command)`. -/
def mutatingTokenMatch (command : String) : Bool :=
  mutatingVerbs.any (fun v => wbSearch v.data command.data none)

/-- `mentions_constitutional_files(command, root)`. -/
def mentionsConstitutionalFiles (root command : String) : Bool :=
  containsSub ".constitution/amendments" command
  || containsSub (root ++ "/.constitution/amendments") command
  || containsSub ".founding" command
  || containsSub "LAW" command

/-- `hook_before_shell_execution.main`: `true` = allow, `false` = deny. -/
def shellGateAllows (root command : String) : Bool :=
  if !mentionsConstitutionalFiles root command then true
  else if isReadOnlyCommand command then true
  else if isPromotionScriptCommand command then true
  else if isStatusOnlyAmendmentRename root command then true
  else if mutatingTokenMatch command || !isReadOnlyCommand command then false
  else true

/-! # Theorems -/

/-! ## Association-list lemmas -/

theorem dictGet?_set_self (d : Dict) (k v : String) :
    dictGet? (dictSet d k v) k = some v := by
  induction d with
  | nil => simp [dictSet, dictGet?]
  | cons p rest ih =>
    obtain ⟨a, b⟩ := p
    by_cases h : a = k
    · simp [dictSet, h, dictGet?]
    · simpa [dictSet, h, dictGet?] using ih

theorem dictGet?_set_ne (d : Dict) (k v k' : String) (h : k' ≠ k) :
    dictGet? (dictSet d k v) k' = dictGet? d k' := by
  induction d with
  | nil => simp [dictSet, dictGet?, Ne.symm h]
  | cons p rest ih =>
    obtain ⟨a, b⟩ := p
    by_cases hp : a = k
    · subst hp
      simp [dictSet, dictGet?, Ne.symm h]
    · by_cases hp' : a = k'
      · subst hp'
        simp [dictSet, dictGet?, hp]
      · simpa [dictSet, dictGet?, hp, hp'] using ih

theorem dictGet?_del_self (d : Dict) (k : String) :
    dictGet? (dictDel d k) k = none := by
  induction d with
  | nil => simp [dictDel, dictGet?]
  | cons p rest ih =>
    obtain ⟨a, b⟩ := p
    by_cases h : a = k
    · simpa [dictDel, h, dictGet?] using ih
    · simpa [dictDel, h, dictGet?] using ih

theorem dictGet?_del_ne (d : Dict) (k k' : String) (h : k' ≠ k) :
    dictGet? (dictDel d k) k' = dictGet? d k' := by
  induction d with
  | nil => simp [dictDel, dictGet?]
  | cons p rest ih =>
    obtain ⟨a, b⟩ := p
    by_cases hp : a = k
    · subst hp
      simpa [dictDel, dictGet?, Ne.symm h] using ih
    · by_cases hp' : a = k'
      · subst hp'
        simp [dictDel, dictGet?, hp]
      · simpa [dictDel, dictGet?, hp, hp'] using ih

/-! ## `parse_frontmatter` basic shape -/

theorem parseFrontmatter_eq_or (text : String) :
    parseFrontmatter text = ("", "", text) ∨ (parseFrontmatter text).1 = "---\n" := by
  unfold parseFrontmatter
  by_cases h : isPreL "---\n".data text.data
  · simp only [h, if_true]
    cases hf : findFrom "\n---\n".data text.data 4 with
    | none => exact Or.inl rfl
    | some second => exact Or.inr rfl
  · simp [h]

theorem parseMap_nil : parseMap "" = ([], []) := rfl

/-- C1: with no accepted counterpart on disk, promoting a draft amendment
succeeds exactly when the record's header carries `status: review` and an
`apply_ok_at` equal to the hash of the current trimmed body; in every
other case the script raises one of its named precondition errors with
the filesystem untouched (no write, rename, or creation). -/
theorem promote_article_success_iff
    (H : String → String) (fs : FS) (p text : String)
    (hacc : fsExists fs (withSuffix p ".✅") = false)
    (hread : fsRead? fs p = some text)
    (hsuf : pathSuffix p = ".📝") :
    ((promoteArticleMain H fs p).isOk = true ↔
      statusOf text = "review" ∧ applyOkAtOf text = H (pyStrip (bodyOf text)))
    ∧ ∀ msg fs' t, promoteArticleMain H fs p = .err msg fs' t → fs' = fs ∧ t = [] := by
  have hex : fsExists fs p = true := by
    show (fsRead? fs p).isSome = true
    rw [hread]
    rfl
  by_cases hpre : (parseFrontmatter text).1 = ""
  · have hfull : parseFrontmatter text = ("", "", text) := by
      rcases parseFrontmatter_eq_or text with h | h
      · exact h
      · rw [hpre] at h
        exact absurd h.symm (by decide)
    have hres : promoteArticleMain H fs p = .err "Draft amendment must include frontmatter." fs [] := by
      unfold promoteArticleMain
      simp [hacc, hex, hsuf, hread, hpre]
    have hstat : statusOf text = "" := by
      simp [statusOf, headerOf, hfull, parseMap_nil, dictGetD, dictGet?]
      decide
    refine ⟨?_, ?_⟩
    · rw [hres, hstat]
      simp [RunResult.isOk]
    · intro msg fs' t h
      rw [hres] at h
      injection h with hm hf ht
      exact ⟨hf.symm, ht.symm⟩
  · by_cases hst : statusOf text = "review"
    · by_cases hap : applyOkAtOf text = H (pyStrip (bodyOf text))
      · have hok : (promoteArticleMain H fs p).isOk = true := by
          unfold promoteArticleMain
          simp only [statusOf, headerOf, applyOkAtOf, bodyOf] at hst hap
          simp [hacc, hex, hsuf, hread, hpre, hst, hap, normalizedBodyHash, RunResult.isOk]
        refine ⟨?_, ?_⟩
        · rw [hok]
          simp [hst, hap]
        · intro msg fs' t h
          rw [h] at hok
          simp [RunResult.isOk] at hok
      · have hres : promoteArticleMain H fs p =
            .err "Draft amendment apply_ok_at must match the current trimmed body hash before promotion." fs [] := by
          unfold promoteArticleMain
          simp only [statusOf, headerOf, applyOkAtOf, bodyOf] at hst hap
          simp [hacc, hex, hsuf, hread, hpre, hst, hap, normalizedBodyHash]
        refine ⟨?_, ?_⟩
        · rw [hres]
          simp [RunResult.isOk, hap]
        · intro msg fs' t h
          rw [hres] at h
          injection h with hm hf ht
          exact ⟨hf.symm, ht.symm⟩
    · have hres : promoteArticleMain H fs p =
          .err "Draft amendment status must be 'review' before promotion." fs [] := by
        unfold promoteArticleMain
        simp only [statusOf, headerOf] at hst
        simp [hacc, hex, hsuf, hread, hpre, hst]
      refine ⟨?_, ?_⟩
      · rw [hres]
        simp [RunResult.isOk, hst]
      · intro msg fs' t h
        rw [hres] at h
        injection h with hm hf ht
        exact ⟨hf.symm, ht.symm⟩

/-- Witness for C1 at a concrete one-record filesystem: the hypotheses
are satisfiable and the promotion there succeeds per the equivalence. -/
theorem promote_article_success_iff_witness :
    (fsExists [("a.📝", "---\nstatus: review\napply_ok_at: h0\n---\nB")] (withSuffix "a.📝" ".✅") = false)
    ∧ (fsRead? [("a.📝", "---\nstatus: review\napply_ok_at: h0\n---\nB")] "a.📝"
        = some "---\nstatus: review\napply_ok_at: h0\n---\nB")
    ∧ (pathSuffix "a.📝" = ".📝")
    ∧ (((promoteArticleMain (fun _ => "h0") [("a.📝", "---\nstatus: review\napply_ok_at: h0\n---\nB")] "a.📝").isOk = true ↔
          statusOf "---\nstatus: review\napply_ok_at: h0\n---\nB" = "review" ∧
          applyOkAtOf "---\nstatus: review\napply_ok_at: h0\n---\nB"
            = (fun _ => "h0") (pyStrip (bodyOf "---\nstatus: review\napply_ok_at: h0\n---\nB")))
        ∧ ∀ msg fs' t,
            promoteArticleMain (fun _ => "h0") [("a.📝", "---\nstatus: review\napply_ok_at: h0\n---\nB")] "a.📝"
              = .err msg fs' t →
            fs' = [("a.📝", "---\nstatus: review\napply_ok_at: h0\n---\nB")] ∧ t = []) :=
  ⟨by decide, by decide, by decide,
    promote_article_success_iff (fun _ => "h0")
      [("a.📝", "---\nstatus: review\napply_ok_at: h0\n---\nB")]
      "a.📝" "---\nstatus: review\napply_ok_at: h0\n---\nB"
      (by decide) (by decide) (by decide)⟩

/-! ## Line codec: `splitlines` is a left inverse of `"\n".join` on
newline-free lines whose last line is nonempty. -/

theorem splitNl_ne_nil (cs : List Char) : splitNl cs ≠ [] := by
  induction cs with
  | nil => simp [splitNl]
  | cons c cs ih =>
    by_cases h : c = '\n'
    · simp [splitNl, h]
    · simp only [splitNl, beq_iff_eq, h, if_false]
      cases hs : splitNl cs with
      | nil => exact absurd hs ih
      | cons l ls => simp

theorem splitNl_no_nl (l : List Char) (h : '\n' ∉ l) : splitNl l = [l] := by
  induction l with
  | nil => rfl
  | cons c cs ih =>
    have hc : ¬ c = '\n' := fun e => h (e ▸ List.mem_cons_self c cs)
    have hcs := ih (fun e => h (List.mem_cons_of_mem c e))
    simp [splitNl, hc, hcs]

theorem splitNl_append (l rest : List Char) (h : '\n' ∉ l) :
    splitNl (l ++ '\n' :: rest) = l :: splitNl rest := by
  induction l with
  | nil => simp [splitNl]
  | cons c cs ih =>
    have hc : ¬ c = '\n' := fun e => h (e ▸ List.mem_cons_self c cs)
    have hcs := ih (fun e => h (List.mem_cons_of_mem c e))
    simp [splitNl, hc, hcs]

theorem joinNl_cons_cons (l l' : String) (rest : List String) :
    (joinNl (l :: l' :: rest)).data = l.data ++ '\n' :: (joinNl (l' :: rest)).data := by
  show (l ++ "\n" ++ joinNl (l' :: rest)).data = _
  simp [String.data_append]

theorem getLast?_cons_ne_nil {α : Type} (a : α) (l : List α) (h : l ≠ []) :
    (a :: l).getLast? = l.getLast? := by
  cases l with
  | nil => exact absurd rfl h
  | cons b bs => exact List.getLast?_cons_cons

theorem joinNl_getLast_ne_nl (lines : List String)
    (hnl : ∀ l ∈ lines, '\n' ∉ l.data)
    (hlast : lines.getLast? ≠ some "") :
    (joinNl lines).data.getLast? ≠ some '\n' := by
  induction lines with
  | nil => simp [joinNl]
  | cons l rest ih =>
    cases rest with
    | nil =>
      have hl : l ≠ "" := fun e => hlast (by simp [e])
      have hnl' : '\n' ∉ l.data := hnl l (by simp)
      show l.data.getLast? ≠ some '\n'
      intro hc
      exact hnl' (List.mem_of_mem_getLast? (by simp [hc]))
    | cons l' rest' =>
      rw [joinNl_cons_cons, List.getLast?_append_cons]
      have htail : (joinNl (l' :: rest')).data ≠ [] := by
        cases rest' with
        | nil =>
          have hl' : l' ≠ "" := fun e => hlast (by simp [e])
          show l'.data ≠ []
          intro e
          exact hl' (congrArg String.mk e)
        | cons l'' rest'' =>
          rw [joinNl_cons_cons]
          simp
      rw [getLast?_cons_ne_nil '\n' _ htail]
      exact ih (fun x hx => hnl x (List.mem_cons_of_mem l hx)) (by simpa using hlast)

theorem splitlines_joinNl (lines : List String)
    (hnl : ∀ l ∈ lines, '\n' ∉ l.data)
    (hlast : lines.getLast? ≠ some "") :
    splitlines (joinNl lines) = lines := by
  induction lines with
  | nil => rfl
  | cons l rest ih =>
    cases rest with
    | nil =>
      have hl : l ≠ "" := fun e => hlast (by simp [e])
      have hnl' : '\n' ∉ l.data := hnl l (by simp)
      show splitlines l = [l]
      have hd : ¬ l.data.isEmpty = true := by
        intro e
        exact hl (congrArg String.mk (List.isEmpty_iff.mp e))
      have hlnl : l.data.getLast? ≠ some '\n' := by
        intro hc
        exact hnl' (List.mem_of_mem_getLast? (by simp [hc]))
      unfold splitlines
      rw [if_neg hd, splitNl_no_nl l.data hnl']
      have : (l.data.getLast? == some '\n') = false := by
        cases hq : l.data.getLast? with
        | none => rfl
        | some c =>
          have : c ≠ '\n' := fun e => hlnl (e ▸ hq)
          simp [this]
      simp [this]
    | cons l' rest' =>
      have hnl' : '\n' ∉ l.data := hnl l (by simp)
      have hnlrest : ∀ x ∈ l' :: rest', '\n' ∉ x.data :=
        fun x hx => hnl x (List.mem_cons_of_mem l hx)
      have hlastrest : (l' :: rest').getLast? ≠ some "" := by simpa using hlast
      have htail : (joinNl (l' :: rest')).data ≠ [] := by
        cases rest' with
        | nil =>
          have hl' : l' ≠ "" := fun e => hlastrest (by simp [e])
          show l'.data ≠ []
          intro e
          exact hl' (congrArg String.mk e)
        | cons l'' rest'' =>
          rw [joinNl_cons_cons]
          simp
      have hlnl := joinNl_getLast_ne_nl (l' :: rest') hnlrest hlastrest
      unfold splitlines
      rw [joinNl_cons_cons]
      have hd : ¬ (l.data ++ '\n' :: (joinNl (l' :: rest')).data).isEmpty = true := by
        simp
      rw [if_neg hd, splitNl_append _ _ hnl', List.getLast?_append_cons,
        getLast?_cons_ne_nil '\n' _ htail]
      have hbeq : ((joinNl (l' :: rest')).data.getLast? == some '\n') = false := by
        cases hq : (joinNl (l' :: rest')).data.getLast? with
        | none => rfl
        | some c =>
          have : c ≠ '\n' := fun e => hlnl (e ▸ hq)
          simp [this]
      rw [hbeq]
      have ihres := ih hnlrest hlastrest
      unfold splitlines at ihres
      rw [if_neg (by simpa using htail), hbeq] at ihres
      simp only [Bool.false_eq_true, if_false, List.map_cons] at ihres ⊢
      rw [ihres]

/-! ## Strip and find lemmas -/

theorem dropLeadingBy_eq_self {p : Char → Bool} {l : List Char}
    (h : ∀ c, l.head? = some c → p c = false) : dropLeadingBy p l = l := by
  cases l with
  | nil => rfl
  | cons c cs => simp [dropLeadingBy, h c rfl]

theorem dropLeadingBy_head {p : Char → Bool} (l : List Char) :
    ∀ c, (dropLeadingBy p l).head? = some c → p c = false := by
  induction l with
  | nil => intro c h; simp [dropLeadingBy] at h
  | cons a as ih =>
    intro c h
    by_cases hp : p a
    · exact ih c (by simpa [dropLeadingBy, hp] using h)
    · simp [dropLeadingBy, hp] at h
      rw [← h]
      simpa using hp

theorem dropLeadingBy_append_ne {p : Char → Bool} (xs ys : List Char)
    (h : dropLeadingBy p xs ≠ []) :
    dropLeadingBy p (xs ++ ys) = dropLeadingBy p xs ++ ys := by
  induction xs with
  | nil => exact absurd rfl h
  | cons a as ih =>
    by_cases hp : p a
    · simp only [dropLeadingBy, hp, if_true] at h ⊢
      exact ih h
    · simp [dropLeadingBy, hp]

theorem dropLeadingBy_append_nil {p : Char → Bool} (xs ys : List Char)
    (h : dropLeadingBy p xs = []) :
    dropLeadingBy p (xs ++ ys) = dropLeadingBy p ys := by
  induction xs with
  | nil => rfl
  | cons a as ih =>
    by_cases hp : p a
    · simp only [dropLeadingBy, hp, if_true] at h ⊢
      exact ih h
    · simp [dropLeadingBy, hp] at h

theorem stripL_cons_ws (c : Char) (l : List Char) (hc : isWs c = true) :
    stripL (c :: l) = stripL l := by
  unfold stripL
  have hrev : (c :: l).reverse = l.reverse ++ [c] := by simp
  rw [hrev]
  by_cases h : dropLeadingBy isWs l.reverse = []
  · rw [dropLeadingBy_append_nil _ _ h, h]
    simp [dropLeadingBy, hc]
  · rw [dropLeadingBy_append_ne _ _ h]
    rw [List.reverse_append]
    simp only [List.reverse_cons, List.reverse_nil, List.nil_append, List.singleton_append]
    simp [dropLeadingBy, hc]

theorem stripL_stripped_head (l : List Char) :
    ∀ c, (stripL l).head? = some c → isWs c = false :=
  fun c h => dropLeadingBy_head _ c h

theorem dropLeadingBy_getLast {p : Char → Bool} (l : List Char)
    (h : dropLeadingBy p l ≠ []) :
    (dropLeadingBy p l).getLast? = l.getLast? := by
  induction l with
  | nil => exact absurd rfl h
  | cons a as ih =>
    by_cases hp : p a
    · simp only [dropLeadingBy, hp, if_true] at h ⊢
      rw [ih h, getLast?_cons_ne_nil]
      intro e
      rw [e] at h
      simp [dropLeadingBy] at h
    · simp [dropLeadingBy, hp]

theorem stripL_stripped_last (l : List Char) :
    ∀ c, (stripL l).getLast? = some c → isWs c = false := by
  intro c h
  unfold stripL at h
  have hne : dropLeadingBy isWs ((dropLeadingBy isWs l.reverse).reverse) ≠ [] := by
    intro e
    rw [e] at h
    simp at h
  rw [dropLeadingBy_getLast _ hne] at h
  rw [List.getLast?_reverse] at h
  exact dropLeadingBy_head _ c h

theorem stripL_of_stripped (l : List Char)
    (hh : ∀ c, l.head? = some c → isWs c = false)
    (hl : ∀ c, l.getLast? = some c → isWs c = false) :
    stripL l = l := by
  unfold stripL
  have h1 : dropLeadingBy isWs l.reverse = l.reverse := by
    apply dropLeadingBy_eq_self
    intro c hc
    rw [List.head?_reverse] at hc
    exact hl c hc
  rw [h1, List.reverse_reverse]
  exact dropLeadingBy_eq_self hh

theorem stripL_idem (l : List Char) : stripL (stripL l) = stripL l :=
  stripL_of_stripped _ (stripL_stripped_head l) (stripL_stripped_last l)

theorem findIdx_char_append (c : Char) (xs rest : List Char) (h : c ∉ xs) :
    findIdx [c] (xs ++ c :: rest) = some xs.length := by
  induction xs with
  | nil => simp [findIdx, isPreL]
  | cons a as ih =>
    have ha : ¬ (c == a) = true := by
      simp only [beq_iff_eq]
      intro e
      exact h (e ▸ List.mem_cons_self a as)
    have has := ih (fun e => h (List.mem_cons_of_mem a e))
    simp only [List.cons_append, findIdx, isPreL]
    rw [if_neg (by simp [ha])]
    simp only [List.append_eq]
    rw [has]
    rfl

theorem findIdx_char_not_mem_take (c : Char) (l : List Char) (i : Nat)
    (h : findIdx [c] l = some i) : c ∉ l.take i := by
  induction l generalizing i with
  | nil => simp [findIdx] at h
  | cons a as ih =>
    by_cases hp : isPreL [c] (a :: as)
    · simp only [findIdx, hp, if_true] at h
      cases h
      simp
    · simp only [findIdx, hp, if_false] at h
      cases hfi : findIdx [c] as with
      | none => rw [hfi] at h; simp at h
      | some j =>
        rw [hfi] at h
        have h' : j + 1 = i := by simpa using h
        subst h'
        have hj := ih j hfi
        have hca : c ≠ a := by
          intro e
          apply hp
          simp [isPreL, e]
        intro hmem
        rw [List.take_succ_cons] at hmem
        rcases List.mem_cons.mp hmem with h1 | h2
        · exact hca h1
        · exact hj h2

/-! ## `parse_map` invariants -/

theorem mem_dropLeadingBy {p : Char → Bool} {x : Char} {l : List Char}
    (h : x ∈ dropLeadingBy p l) : x ∈ l := by
  induction l with
  | nil => simp [dropLeadingBy] at h
  | cons a as ih =>
    by_cases hp : p a
    · exact List.mem_cons_of_mem a (ih (by simpa [dropLeadingBy, hp] using h))
    · simpa [dropLeadingBy, hp] using h

theorem mem_stripL {x : Char} {l : List Char} (h : x ∈ stripL l) : x ∈ l := by
  unfold stripL at h
  have h1 := mem_dropLeadingBy h
  rw [List.mem_reverse] at h1
  have h2 := mem_dropLeadingBy h1
  rwa [List.mem_reverse] at h2

theorem dictMem_iff_mem_keys (m : Dict) (k : String) :
    dictMem m k = true ↔ k ∈ m.map Prod.fst := by
  induction m with
  | nil => simp [dictMem, dictGet?]
  | cons p rest ih =>
    obtain ⟨a, b⟩ := p
    by_cases h : a = k
    · simp [dictMem, dictGet?, h]
    · simp only [dictMem, dictGet?, h, if_false, List.map_cons, List.mem_cons]
      rw [← ih]
      simp [dictMem, Ne.symm h]

theorem dictSet_keys_of_mem (m : Dict) (k v : String) (h : dictMem m k = true) :
    (dictSet m k v).map Prod.fst = m.map Prod.fst := by
  induction m with
  | nil => simp [dictMem, dictGet?] at h
  | cons p rest ih =>
    obtain ⟨a, b⟩ := p
    by_cases ha : a = k
    · simp [dictSet, ha]
    · simp only [dictMem, dictGet?, ha, if_false] at h
      simp [dictSet, ha, ih h]

theorem dictSet_fresh (m : Dict) (k v : String) (h : dictMem m k = false) :
    dictSet m k v = m ++ [(k, v)] := by
  induction m with
  | nil => rfl
  | cons p rest ih =>
    obtain ⟨a, b⟩ := p
    by_cases ha : a = k
    · simp [dictMem, dictGet?, ha] at h
    · simp only [dictMem, dictGet?, ha, if_false] at h
      simp [dictSet, ha, ih h]

theorem mem_of_mem_dictSet {m : Dict} {k v : String} {kv : String × String}
    (h : kv ∈ dictSet m k v) : kv ∈ m ∨ kv = (k, v) := by
  induction m with
  | nil => exact Or.inr (by simpa [dictSet] using h)
  | cons p rest ih =>
    obtain ⟨a, b⟩ := p
    by_cases ha : a = k
    · subst ha
      simp only [dictSet, beq_self_eq_true, if_true] at h
      rcases List.mem_cons.mp h with h1 | h1
      · exact Or.inr h1
      · exact Or.inl (List.mem_cons_of_mem _ h1)
    · have hb : (a == k) = false := by simpa using ha
      simp only [dictSet, hb, Bool.false_eq_true, if_false] at h
      rcases List.mem_cons.mp h with h1 | h1
      · exact Or.inl (h1 ▸ List.mem_cons_self _ _)
      · rcases ih h1 with h2 | h2
        · exact Or.inl (List.mem_cons_of_mem _ h2)
        · exact Or.inr h2

theorem pyStrip_clean_of_take (line : String) (i : Nat)
    (hnl : '\n' ∉ line.data) (hc : findIdx [':'] line.data = some i) :
    CleanKey (pyStrip ⟨line.data.take i⟩) := by
  refine ⟨stripL_idem _, ?_, ?_⟩
  · intro hmem
    exact findIdx_char_not_mem_take ':' line.data i hc (mem_stripL hmem)
  · intro hmem
    exact hnl (List.mem_of_mem_take (mem_stripL hmem))

theorem pyStrip_clean_of_drop (line : String) (j : Nat)
    (hnl : '\n' ∉ line.data) :
    CleanVal (pyStrip ⟨line.data.drop j⟩) := by
  refine ⟨stripL_idem _, ?_⟩
  intro hmem
  exact hnl (List.mem_of_mem_drop (mem_stripL hmem))

theorem parseMapStep_inv (acc : Dict × List String) (line : String)
    (hline : '\n' ∉ line.data) (hinv : MapInv acc.1 acc.2) :
    MapInv (parseMapStep acc line).1 (parseMapStep acc line).2 := by
  obtain ⟨halign, hnodup, hclean⟩ := hinv
  unfold parseMapStep
  cases hfi : findIdx [':'] line.data with
  | none => exact ⟨halign, hnodup, hclean⟩
  | some i =>
    simp only []
    set key := pyStrip ⟨line.data.take i⟩ with hkey
    set value := pyStrip ⟨line.data.drop (i + 1)⟩ with hvalue
    have hck : CleanKey key := pyStrip_clean_of_take line i hline hfi
    have hcv : CleanVal value := pyStrip_clean_of_drop line (i + 1) hline
    by_cases hmem : acc.2.contains key
    · have hmem' : dictMem acc.1 key = true := by
        rw [dictMem_iff_mem_keys, halign]
        simpa using hmem
      rw [if_pos hmem]
      refine ⟨?_, hnodup, ?_⟩
      · rw [dictSet_keys_of_mem _ _ _ hmem', halign]
      · intro kv hkv
        rcases mem_of_mem_dictSet hkv with h1 | h1
        · exact hclean kv h1
        · rw [h1]; exact ⟨hck, hcv⟩
    · have hmem' : dictMem acc.1 key = false := by
        rw [Bool.eq_false_iff]
        intro hx
        rw [dictMem_iff_mem_keys, halign] at hx
        exact (by simpa using hmem : key ∉ acc.2) hx
      rw [if_neg hmem]
      refine ⟨?_, ?_, ?_⟩
      · rw [dictSet_fresh _ _ _ hmem']
        simp [halign]
      · rw [List.nodup_append]
        refine ⟨hnodup, List.nodup_singleton _, ?_⟩
        intro x hx hx'
        rcases List.mem_singleton.mp hx' with rfl
        exact (by simpa using hmem : key ∉ acc.2) hx
      · intro kv hkv
        rcases mem_of_mem_dictSet hkv with h1 | h1
        · exact hclean kv h1
        · rw [h1]; exact ⟨hck, hcv⟩

theorem foldl_parseMapStep_inv (lines : List String) (acc : Dict × List String)
    (hlines : ∀ l ∈ lines, '\n' ∉ l.data) (hinv : MapInv acc.1 acc.2) :
    MapInv (lines.foldl parseMapStep acc).1 (lines.foldl parseMapStep acc).2 := by
  induction lines generalizing acc with
  | nil => exact hinv
  | cons l rest ih =>
    rw [List.foldl_cons]
    exact ih _ (fun x hx => hlines x (List.mem_cons_of_mem l hx))
      (parseMapStep_inv acc l (hlines l (List.mem_cons_self l rest)) hinv)

theorem splitNl_no_mem_nl (cs : List Char) : ∀ l ∈ splitNl cs, '\n' ∉ l := by
  induction cs with
  | nil =>
    intro l hl
    simp only [splitNl, List.mem_singleton] at hl
    simp [hl]
  | cons c cs ih =>
    intro l hl
    by_cases hc : c = '\n'
    · simp only [splitNl, hc] at hl
      simp only [beq_self_eq_true, if_true] at hl
      rcases List.mem_cons.mp hl with h1 | h1
      · simp [h1]
      · exact ih l h1
    · simp only [splitNl, beq_iff_eq, hc, if_false] at hl
      cases hs : splitNl cs with
      | nil => exact absurd hs (splitNl_ne_nil cs)
      | cons x xs =>
        rw [hs] at hl
        rcases List.mem_cons.mp hl with h1 | h1
        · subst h1
          intro hm
          rcases List.mem_cons.mp hm with h2 | h2
          · exact hc h2.symm
          · exact ih x (hs ▸ List.mem_cons_self x xs) h2
        · exact ih l (hs ▸ List.mem_cons_of_mem x h1)

theorem splitlines_sub (s : String) : ∀ l ∈ splitlines s, l.data ∈ splitNl s.data := by
  intro l hl
  simp only [splitlines] at hl
  split_ifs at hl with h1 h2
  · simp at hl
  · obtain ⟨cs, hcs, rfl⟩ := List.mem_map.mp hl
    exact List.dropLast_subset _ hcs
  · obtain ⟨cs, hcs, rfl⟩ := List.mem_map.mp hl
    exact hcs

theorem splitlines_no_nl (s : String) : ∀ l ∈ splitlines s, '\n' ∉ l.data :=
  fun l hl => splitNl_no_mem_nl s.data l.data (splitlines_sub s l hl)

theorem parseMap_inv (fm : String) : MapInv (parseMap fm).1 (parseMap fm).2 :=
  foldl_parseMapStep_inv (splitlines fm) ([], [])
    (splitlines_no_nl fm) ⟨rfl, List.nodup_nil, by simp⟩

/-! ## Serialise-then-parse -/

theorem dictGet?_mem {m : Dict} {k v : String} (h : dictGet? m k = some v) :
    (k, v) ∈ m := by
  induction m with
  | nil => simp [dictGet?] at h
  | cons p rest ih =>
    obtain ⟨a, b⟩ := p
    by_cases ha : a = k
    · subst ha
      have hbv : b = v := by simpa [dictGet?] using h
      subst hbv
      exact List.mem_cons_self _ _
    · simp only [dictGet?, ha, if_false] at h
      exact List.mem_cons_of_mem _ (ih h)

theorem dictGet?_eq_none_iff (m : Dict) (k : String) :
    dictGet? m k = none ↔ k ∉ m.map Prod.fst := by
  have := dictMem_iff_mem_keys m k
  unfold dictMem at this
  constructor
  · intro h hm
    rw [← this] at hm
    rw [h] at hm
    simp at hm
  · intro h
    cases hq : dictGet? m k with
    | none => rfl
    | some v =>
      exact absurd (this.mp (by simp [dictMem, hq])) h

theorem parseMapStep_lineOf (acc : Dict × List String) (k v : String)
    (hk : CleanKey k) (hv : CleanVal v) :
    parseMapStep acc (lineOf (k, v)) =
      (dictSet acc.1 k v, if acc.2.contains k then acc.2 else acc.2 ++ [k]) := by
  have hdata : (lineOf (k, v)).data = k.data ++ ':' :: ' ' :: v.data := by
    show (k ++ ": " ++ v).data = _
    simp [String.data_append]
  have hf : findIdx [':'] (lineOf (k, v)).data = some k.data.length := by
    rw [hdata]
    exact findIdx_char_append ':' k.data _ hk.2.1
  unfold parseMapStep
  rw [hf]
  dsimp only
  have htake : (lineOf (k, v)).data.take k.data.length = k.data := by
    rw [hdata, List.take_left]
  have hdrop : (lineOf (k, v)).data.drop (k.data.length + 1) = ' ' :: v.data := by
    rw [hdata]
    rw [show k.data ++ ':' :: ' ' :: v.data = (k.data ++ [':']) ++ (' ' :: v.data) by simp]
    rw [show k.data.length + 1 = (k.data ++ [':']).length by simp]
    exact List.drop_left _ _
  rw [htake, hdrop]
  have hkey : pyStrip ⟨k.data⟩ = k := by
    show (⟨stripL k.data⟩ : String) = k
    rw [hk.1]
  have hval : pyStrip ⟨' ' :: v.data⟩ = v := by
    show (⟨stripL (' ' :: v.data)⟩ : String) = v
    rw [stripL_cons_ws ' ' v.data (by decide), hv.1]
  rw [hkey, hval]

theorem foldl_parseMapStep_lines (pairs : List (String × String)) (m : Dict) (o : List String)
    (hclean : ∀ kv ∈ pairs, CleanPair kv)
    (hfresh : ∀ kv ∈ pairs, dictMem m kv.1 = false)
    (hfresho : ∀ kv ∈ pairs, kv.1 ∉ o)
    (hnodup : (pairs.map Prod.fst).Nodup) :
    (pairs.map lineOf).foldl parseMapStep (m, o) = (m ++ pairs, o ++ pairs.map Prod.fst) := by
  induction pairs generalizing m o with
  | nil => simp
  | cons kv rest ih =>
    obtain ⟨k, v⟩ := kv
    have hcl := hclean (k, v) (List.mem_cons_self _ _)
    rw [List.map_cons, List.foldl_cons, parseMapStep_lineOf (m, o) k v hcl.1 hcl.2]
    have hko : ¬ o.contains k = true := by
      intro hx
      exact hfresho (k, v) (List.mem_cons_self _ _) (by simpa using hx)
    rw [if_neg hko, dictSet_fresh m k v (hfresh (k, v) (List.mem_cons_self _ _))]
    rw [List.map_cons] at hnodup
    have hrest := ih (m ++ [(k, v)]) (o ++ [k])
      (fun kv hkv => hclean kv (List.mem_cons_of_mem _ hkv))
      (fun kv hkv => by
        rw [Bool.eq_false_iff]
        intro hx
        rw [dictMem_iff_mem_keys] at hx
        rw [List.map_append] at hx
        rcases List.mem_append.mp hx with h1 | h1
        · rw [← dictMem_iff_mem_keys] at h1
          exact absurd h1 (by simp [hfresh kv (List.mem_cons_of_mem _ hkv)])
        · simp only [List.map_cons, List.map_nil, List.mem_singleton] at h1
          exact (List.nodup_cons.mp hnodup).1 (h1 ▸ List.mem_map.mpr ⟨kv, hkv, rfl⟩))
      (fun kv hkv => by
        intro hx
        rcases List.mem_append.mp hx with h1 | h1
        · exact hfresho kv (List.mem_cons_of_mem _ hkv) h1
        · rcases List.mem_singleton.mp h1 with h2
          exact (List.nodup_cons.mp hnodup).1 (h2 ▸ List.mem_map.mpr ⟨kv, hkv, rfl⟩))
      (List.nodup_cons.mp hnodup).2
    rw [hrest]
    simp

theorem lineOf_data (k v : String) :
    (lineOf (k, v)).data = k.data ++ ':' :: ' ' :: v.data := by
  show (k ++ ": " ++ v).data = _
  simp [String.data_append]

theorem parseMap_of_serialized (m : Dict) (o : List String)
    (hno : o.Nodup)
    (hclean : ∀ kv ∈ m, CleanPair kv) :
    parseMap (joinNl (serializeHeaderLines m o)) =
      ((o.filter (fun k => dictMem m k)).map (fun k => (k, dictGetD m k "")),
        (o.filter (fun k => dictMem m k))) := by
  set pairs := (o.filter (fun k => dictMem m k)).map (fun k => (k, dictGetD m k ""))
    with hpairs
  have hlines : serializeHeaderLines m o = pairs.map lineOf := by
    rw [hpairs]
    unfold serializeHeaderLines
    rw [List.map_map]
    rfl
  have hvals : ∀ k, dictMem m k = true → (k, dictGetD m k "") ∈ m := by
    intro k hk
    have hsome : (dictGet? m k).isSome = true := hk
    obtain ⟨v, hv⟩ := Option.isSome_iff_exists.mp hsome
    rw [show dictGetD m k "" = v by simp [dictGetD, hv]]
    exact dictGet?_mem hv
  have hpc : ∀ kv ∈ pairs, CleanPair kv := by
    intro kv hkv
    rw [hpairs] at hkv
    obtain ⟨k, hk, rfl⟩ := List.mem_map.mp hkv
    exact hclean _ (hvals k (by simpa using (List.mem_filter.mp hk).2))
  have hfst : pairs.map Prod.fst = o.filter (fun k => dictMem m k) := by
    rw [hpairs, List.map_map]
    show List.map (fun k => k) (o.filter fun k => dictMem m k) = _
    simp
  have hnodup2 : (pairs.map Prod.fst).Nodup := by
    rw [hfst]
    exact hno.filter _
  have hln : ∀ l ∈ pairs.map lineOf, '\n' ∉ l.data := by
    intro l hl
    obtain ⟨kv, hkv, rfl⟩ := List.mem_map.mp hl
    obtain ⟨hk, hv⟩ := hpc kv hkv
    obtain ⟨k, v⟩ := kv
    rw [lineOf_data]
    intro hmem
    rcases List.mem_append.mp hmem with h1 | h1
    · exact hk.2.2 h1
    · rcases List.mem_cons.mp h1 with h2 | h2
      · exact absurd h2 (by decide)
      · rcases List.mem_cons.mp h2 with h3 | h3
        · exact absurd h3 (by decide)
        · exact hv.2 h3
  have hlast : (pairs.map lineOf).getLast? ≠ some "" := by
    intro h
    have hx : (⟨[]⟩ : String) ∈ pairs.map lineOf :=
      List.mem_of_mem_getLast? (by simp [h])
    obtain ⟨kv, _, hkv⟩ := List.mem_map.mp hx
    obtain ⟨k, v⟩ := kv
    have := congrArg String.data hkv
    rw [lineOf_data] at this
    exact absurd this (by simp)
  unfold parseMap
  rw [hlines, splitlines_joinNl _ hln hlast,
    foldl_parseMapStep_lines pairs [] [] hpc
      (by intro kv _; rfl) (by intro kv _; simp) hnodup2]
  rw [hfst]
  simp

theorem map_getD_eq_self (m : Dict) (hnd : (m.map Prod.fst).Nodup) :
    (m.map Prod.fst).map (fun k => (k, dictGetD m k "")) = m := by
  induction m with
  | nil => rfl
  | cons kv rest ih =>
    obtain ⟨k, v⟩ := kv
    simp only [List.map_cons] at hnd ⊢
    have hk : k ∉ rest.map Prod.fst := (List.nodup_cons.mp hnd).1
    have hnd' := (List.nodup_cons.mp hnd).2
    congr 1
    · simp [dictGetD, dictGet?]
    · have hcg : ∀ k' ∈ rest.map Prod.fst,
          (k', dictGetD ((k, v) :: rest) k' "") = (k', dictGetD rest k' "") := by
        intro k' hk'
        have hne : ¬ k = k' := fun e => hk (e ▸ hk')
        simp [dictGetD, dictGet?, hne]
      rw [List.map_congr_left hcg, ih hnd']

theorem parseMap_roundtrip (fm : String) :
    parseMap (joinNl (serializeHeaderLines (parseMap fm).1 (parseMap fm).2)) = parseMap fm := by
  obtain ⟨halign, hnodup, hclean⟩ := parseMap_inv fm
  rw [parseMap_of_serialized _ _ hnodup hclean]
  have hfilter : (parseMap fm).2.filter (fun k => dictMem (parseMap fm).1 k) = (parseMap fm).2 := by
    rw [List.filter_eq_self]
    intro k hk
    rw [dictMem_iff_mem_keys, halign]
    exact hk
  rw [hfilter, ← halign, map_getD_eq_self _ (halign ▸ hnodup), halign]

theorem serializeHeaderLines_append_key (m : Dict) (o : List String) (k v : String)
    (hk : k ∉ o) :
    serializeHeaderLines (dictSet m k v) (o ++ [k]) =
      serializeHeaderLines m o ++ [lineOf (k, v)] := by
  unfold serializeHeaderLines
  rw [List.filter_append]
  have h1 : List.filter (fun k' => dictMem (dictSet m k v) k') [k] = [k] := by
    simp [List.filter, dictMem, dictGet?_set_self]
  rw [h1, List.map_append]
  congr 1
  · have hfil : o.filter (fun k' => dictMem (dictSet m k v) k')
        = o.filter (fun k' => dictMem m k') := by
      apply List.filter_congr
      intro k' hk'
      have hne : k' ≠ k := fun e => hk (e ▸ hk')
      simp [dictMem, dictGet?_set_ne m k v k' hne]
    rw [hfil]
    apply List.map_congr_left
    intro k' hk'
    have hne : k' ≠ k := fun e => hk (e ▸ (List.mem_filter.mp hk').1)
    simp [dictGetD, dictGet?_set_ne m k v k' hne]
  · simp [dictGetD, dictGet?_set_self]

theorem serializeHeaderLines_set_map_only (m : Dict) (o : List String) (k v : String)
    (hk : k ∉ o) :
    serializeHeaderLines (dictSet m k v) o = serializeHeaderLines m o := by
  unfold serializeHeaderLines
  have hfil : o.filter (fun k' => dictMem (dictSet m k v) k')
      = o.filter (fun k' => dictMem m k') := by
    apply List.filter_congr
    intro k' hk'
    have hne : k' ≠ k := fun e => hk (e ▸ hk')
    simp [dictMem, dictGet?_set_ne m k v k' hne]
  rw [hfil]
  apply List.map_congr_left
  intro k' hk'
  have hne : k' ≠ k := fun e => hk (e ▸ (List.mem_filter.mp hk').1)
  simp [dictGetD, dictGet?_set_ne m k v k' hne]

/-! ## Rebuilding a record text: the first `\n---\n` after a serialised
header block is the closing delimiter. -/

theorem isPreL_append_self (p x : List Char) : isPreL p (p ++ x) = true := by
  induction p with
  | nil => rfl
  | cons c cs ih => simp [isPreL, ih]

theorem isPreL_head_ne (c d : Char) (p t : List Char) (h : c ≠ d) :
    isPreL (c :: p) (d :: t) = false := by
  simp [isPreL, h]

theorem findIdx_cons_not (pat : List Char) (c : Char) (cs : List Char)
    (h : isPreL pat (c :: cs) = false) :
    findIdx pat (c :: cs) = (findIdx pat cs).map (· + 1) := by
  simp [findIdx, h]

theorem findIdx_skip (pat xs ys : List Char)
    (h : ∀ j, j < xs.length → isPreL pat ((xs ++ ys).drop j) = false) :
    findIdx pat (xs ++ ys) = (findIdx pat ys).map (· + xs.length) := by
  induction xs with
  | nil => simp
  | cons c cs ih =>
    rw [List.cons_append, findIdx_cons_not pat c (cs ++ ys)
      (by simpa using h 0 (Nat.succ_pos _))]
    rw [ih (fun j hj => by simpa using h (j + 1) (Nat.succ_lt_succ hj))]
    cases findIdx pat ys with
    | none => rfl
    | some i =>
      show some (i + cs.length + 1) = some (i + (cs.length + 1))
      exact congrArg some (Nat.add_assoc i cs.length 1)

/-- A line-safe string cannot start the tail `---\n` of the delimiter
when followed by a newline. -/
theorem not_isPreL_dashes (l : String) (zs : List Char)
    (hnl : '\n' ∉ l.data) (hne : l ≠ "---") :
    isPreL ['-', '-', '-', '\n'] (l.data ++ '\n' :: zs) = false := by
  rw [Bool.eq_false_iff]
  intro htrue
  rcases hd : l.data with _ | ⟨c1, _ | ⟨c2, _ | ⟨c3, _ | ⟨c4, tl⟩⟩⟩⟩ <;> rw [hd] at htrue
  · simp [isPreL] at htrue
  · simp [isPreL] at htrue
  · simp [isPreL] at htrue
  · simp only [List.cons_append, List.nil_append, isPreL, Bool.and_eq_true, beq_iff_eq] at htrue
    obtain ⟨h1, h2, h3, -⟩ := htrue
    apply hne
    apply congrArg String.mk
    rw [hd, ← h1, ← h2, ← h3]
  · simp only [List.cons_append, isPreL, Bool.and_eq_true, beq_iff_eq] at htrue
    obtain ⟨h1, h2, h3, h4, -⟩ := htrue
    apply hnl
    rw [hd, ← h4]
    simp

theorem findIdx_of_isPreL (pat l : List Char) (h : isPreL pat l = true) (hne : pat ≠ []) :
    findIdx pat l = some 0 := by
  cases l with
  | nil =>
    cases pat with
    | nil => exact absurd rfl hne
    | cons c cs => simp [isPreL] at h
  | cons c cs => simp [findIdx, h]

theorem drop_head_ne_nl (l : List Char) (zs : List Char) (j : Nat)
    (hj : j < l.length) (hnl : '\n' ∉ l) (pat : List Char) :
    isPreL ('\n' :: pat) ((l ++ zs).drop j) = false := by
  have hdrop : (l ++ zs).drop j = l.drop j ++ zs :=
    List.drop_append_of_le_length (Nat.le_of_lt hj)
  obtain ⟨c, cs, hd⟩ : ∃ c cs, l.drop j = c :: cs := by
    cases hq : l.drop j with
    | nil =>
      exfalso
      have := List.drop_eq_nil_iff.mp hq
      omega
    | cons c cs => exact ⟨c, cs, rfl⟩
  have hc : c ∈ l := List.mem_of_mem_drop (by rw [hd]; exact List.mem_cons_self c cs)
  have hcne : '\n' ≠ c := fun e => hnl (e ▸ hc)
  rw [hdrop, hd]
  exact isPreL_head_ne '\n' c _ _ hcne

theorem findIdx_delim_join (lines : List String) (rest : List Char)
    (hsafe : ∀ l ∈ lines, '\n' ∉ l.data ∧ l ≠ "---") :
    findIdx "\n---\n".data ((joinNl lines).data ++ "\n---\n".data ++ rest)
      = some (joinNl lines).data.length := by
  induction lines with
  | nil =>
    show findIdx "\n---\n".data (([] : List Char) ++ "\n---\n".data ++ rest) = some 0
    simp only [List.nil_append]
    exact findIdx_of_isPreL _ _ (isPreL_append_self _ _) (by decide)
  | cons l rest' ih =>
    cases rest' with
    | nil =>
      show findIdx "\n---\n".data (l.data ++ "\n---\n".data ++ rest) = some l.data.length
      rw [List.append_assoc]
      rw [findIdx_skip _ l.data _ (fun j hj =>
        drop_head_ne_nl l.data _ j hj (hsafe l (List.mem_cons_self _ _)).1 _)]
      rw [findIdx_of_isPreL _ _ (isPreL_append_self _ _) (by decide)]
      show some (0 + l.data.length) = some l.data.length
      rw [Nat.zero_add]
    | cons l' rest'' =>
      have hsl := hsafe l (List.mem_cons_self _ _)
      have hsl' := hsafe l' (List.mem_cons_of_mem _ (List.mem_cons_self _ _))
      have hsafeTail : ∀ x ∈ l' :: rest'', '\n' ∉ x.data ∧ x ≠ "---" :=
        fun x hx => hsafe x (List.mem_cons_of_mem _ hx)
      rw [joinNl_cons_cons]
      have hre : (l.data ++ '\n' :: (joinNl (l' :: rest'')).data) ++ "\n---\n".data ++ rest
          = l.data ++ '\n' :: ((joinNl (l' :: rest'')).data ++ "\n---\n".data ++ rest) := by
        simp
      rw [hre]
      rw [findIdx_skip _ l.data _ (fun j hj =>
        drop_head_ne_nl l.data _ j hj hsl.1 _)]
      have hnotat : isPreL "\n---\n".data
          ('\n' :: ((joinNl (l' :: rest'')).data ++ "\n---\n".data ++ rest)) = false := by
        show (('\n' == '\n') &&
          isPreL ['-', '-', '-', '\n'] ((joinNl (l' :: rest'')).data ++ "\n---\n".data ++ rest)) = false
        rw [Bool.and_eq_false_iff]
        right
        have hx : (joinNl (l' :: rest'')).data ++ "\n---\n".data ++ rest
            = l'.data ++ '\n' :: (match rest'' with
                | [] => ['-', '-', '-', '\n'] ++ rest
                | _ :: _ => (joinNl rest'').data ++ "\n---\n".data ++ rest) := by
          cases rest'' with
          | nil => simp [joinNl]
          | cons x xs =>
            rw [joinNl_cons_cons]
            simp
        rw [hx]
        exact not_isPreL_dashes l' _ hsl'.1 hsl'.2
      rw [findIdx_cons_not _ _ _ hnotat]
      rw [ih hsafeTail]
      show some ((joinNl (l' :: rest'')).data.length + 1 + l.data.length) = _
      rw [List.length_append, List.length_cons]
      congr 1
      omega

theorem parseFrontmatter_mk (lines : List String) (body : String)
    (hsafe : ∀ l ∈ lines, '\n' ∉ l.data ∧ l ≠ "---") :
    parseFrontmatter ("---\n" ++ joinNl lines ++ "\n---\n" ++ body)
      = ("---\n", joinNl lines, body) := by
  have hdata : ("---\n" ++ joinNl lines ++ "\n---\n" ++ body).data
      = "---\n".data ++ ((joinNl lines).data ++ "\n---\n".data ++ body.data) := by
    simp [String.data_append]
  unfold parseFrontmatter
  rw [hdata]
  rw [if_pos (isPreL_append_self "---\n".data _)]
  have hdrop4 : ("---\n".data ++ ((joinNl lines).data ++ "\n---\n".data ++ body.data)).drop 4
      = (joinNl lines).data ++ "\n---\n".data ++ body.data := by
    rw [show (4 : Nat) = "---\n".data.length from rfl, List.drop_left]
  have hfind : findFrom "\n---\n".data
      ("---\n".data ++ ((joinNl lines).data ++ "\n---\n".data ++ body.data)) 4
      = some ((joinNl lines).data.length + 4) := by
    unfold findFrom
    rw [hdrop4, findIdx_delim_join lines body.data hsafe]
    rfl
  have htake : (((joinNl lines).data ++ "\n---\n".data ++ body.data).take
      ((joinNl lines).data.length + 4 - 4)) = (joinNl lines).data := by
    rw [show (joinNl lines).data.length + 4 - 4 = (joinNl lines).data.length by omega]
    rw [List.append_assoc, List.take_left]
  have hdropB : ("---\n".data ++ ((joinNl lines).data ++ "\n---\n".data ++ body.data)).drop
      ((joinNl lines).data.length + 4 + 5) = body.data := by
    rw [show "---\n".data ++ ((joinNl lines).data ++ "\n---\n".data ++ body.data)
        = ("---\n".data ++ (joinNl lines).data ++ "\n---\n".data) ++ body.data by simp]
    rw [show (joinNl lines).data.length + 4 + 5
        = ("---\n".data ++ (joinNl lines).data ++ "\n---\n".data).length by
      simp [List.length_append]]
    exact List.drop_left _ _
  rw [hfind]
  dsimp only
  rw [show (['-', '-', '-', '\n'] : List Char) = "---\n".data from rfl,
    show (['\n', '-', '-', '-', '\n'] : List Char) = "\n---\n".data from rfl,
    hdrop4, htake, hdropB]

theorem serializeHeaderLines_safe (m : Dict) (o : List String)
    (hclean : ∀ kv ∈ m, CleanPair kv) :
    ∀ l ∈ serializeHeaderLines m o, '\n' ∉ l.data ∧ l ≠ "---" := by
  intro l hl
  unfold serializeHeaderLines at hl
  obtain ⟨k, hk, rfl⟩ := List.mem_map.mp hl
  have hmem : dictMem m k = true := by simpa using (List.mem_filter.mp hk).2
  obtain ⟨v, hv⟩ := Option.isSome_iff_exists.mp hmem
  have hp := hclean (k, v) (dictGet?_mem hv)
  have hgd : dictGetD m k "" = v := by simp [dictGetD, hv]
  rw [hgd]
  constructor
  · rw [lineOf_data]
    intro hx
    rcases List.mem_append.mp hx with h1 | h1
    · exact hp.1.2.2 h1
    · rcases List.mem_cons.mp h1 with h2 | h2
      · exact absurd h2 (by decide)
      · rcases List.mem_cons.mp h2 with h3 | h3
        · exact absurd h3 (by decide)
        · exact hp.2.2 h3
  · intro he
    have hd := congrArg String.data he
    rw [lineOf_data] at hd
    have hcolon : ':' ∈ ("---".data : List Char) := by
      rw [← hd]
      simp
    exact absurd hcolon (by decide)

/-- C9 (amended): the promotion codec round-trips: serialising a parsed
header reproduces every field in its original order with values
unchanged, and re-parsing the written record recovers exactly the parsed
header, order and body.  A new field is placed at the end of the
serialised header when it is appended to both the mapping and the order
list; a field added to the mapping alone is silently omitted by
`promote_article.write_map` (it is *not* appended at the end). -/
theorem record_codec_roundtrip :
    (∀ fm body : String,
        headerOf (writeMapContent "---\n" body (parseMap fm).1 (parseMap fm).2) = (parseMap fm).1
        ∧ headerOrderOf (writeMapContent "---\n" body (parseMap fm).1 (parseMap fm).2) = (parseMap fm).2
        ∧ bodyOf (writeMapContent "---\n" body (parseMap fm).1 (parseMap fm).2) = body)
    ∧ (∀ fm k v, k ∉ (parseMap fm).2 →
        serializeHeaderLines (dictSet (parseMap fm).1 k v) ((parseMap fm).2 ++ [k])
          = serializeHeaderLines (parseMap fm).1 (parseMap fm).2 ++ [lineOf (k, v)])
    ∧ (∀ fm k v, k ∉ (parseMap fm).2 →
        serializeHeaderLines (dictSet (parseMap fm).1 k v) (parseMap fm).2
          = serializeHeaderLines (parseMap fm).1 (parseMap fm).2) := by
  refine ⟨?_, ?_, ?_⟩
  · intro fm body
    obtain ⟨halign, hnodup, hclean⟩ := parseMap_inv fm
    have hsafe := serializeHeaderLines_safe (parseMap fm).1 (parseMap fm).2 hclean
    have hpf := parseFrontmatter_mk
      (serializeHeaderLines (parseMap fm).1 (parseMap fm).2) body hsafe
    unfold headerOf headerOrderOf bodyOf writeMapContent
    rw [hpf]
    dsimp only
    rw [parseMap_roundtrip fm]
    exact ⟨rfl, rfl, rfl⟩
  · intro fm k v hk
    exact serializeHeaderLines_append_key _ _ k v hk
  · intro fm k v hk
    exact serializeHeaderLines_set_map_only _ _ k v hk

/-- Witness for C9 at a concrete header: round-trip of `"a: 1"` with a
fresh field `z`. -/
theorem record_codec_roundtrip_witness :
    (headerOf (writeMapContent "---\n" "B" (parseMap "a: 1").1 (parseMap "a: 1").2)
        = (parseMap "a: 1").1
      ∧ headerOrderOf (writeMapContent "---\n" "B" (parseMap "a: 1").1 (parseMap "a: 1").2)
        = (parseMap "a: 1").2
      ∧ bodyOf (writeMapContent "---\n" "B" (parseMap "a: 1").1 (parseMap "a: 1").2) = "B")
    ∧ ("z" ∉ (parseMap "a: 1").2)
    ∧ serializeHeaderLines (dictSet (parseMap "a: 1").1 "z" "1") ((parseMap "a: 1").2 ++ ["z"])
        = serializeHeaderLines (parseMap "a: 1").1 (parseMap "a: 1").2 ++ [lineOf ("z", "1")]
    ∧ serializeHeaderLines (dictSet (parseMap "a: 1").1 "z" "1") (parseMap "a: 1").2
        = serializeHeaderLines (parseMap "a: 1").1 (parseMap "a: 1").2 :=
  ⟨record_codec_roundtrip.1 "a: 1" "B", by decide,
    record_codec_roundtrip.2.1 "a: 1" "z" "1" (by decide),
    record_codec_roundtrip.2.2 "a: 1" "z" "1" (by decide)⟩

/-- C9 counterexample: a new field written only into the mapping — which
is exactly what `mark_law_stale` does with `stale_reason` — is dropped by
`promote_article.write_map` instead of being appended at the end of the
header: the serialised record is byte-identical to one without the field. -/
theorem write_map_drops_map_only_field :
    writeMapContent "---\n" "B" (dictSet (parseMap "a: 1").1 "stale_reason" "x") (parseMap "a: 1").2
      = "---\na: 1\n---\nB"
    ∧ dictGet? (dictSet (parseMap "a: 1").1 "stale_reason" "x") "stale_reason" = some "x" := by
  constructor
  · decide
  · decide

/-! ## C3: re-running promotion -/

/-- C3 (amended): re-invoking amendment promotion when the `.✅`
counterpart already exists is a no-op reporting the same success line;
re-invoking *founding* promotion when `.founding.✅` exists instead
raises the named error "already accepted" rather than reporting success. -/
theorem promote_rerun_behavior :
    (∀ (H : String → String) (fs : FS) (p : String),
        fsExists fs (withSuffix p ".✅") = true →
        promoteArticleMain H fs p = .ok fs [] ("promoted_amendment=" ++ withSuffix p ".✅"))
    ∧ (∀ (H : String → String) (fs : FS),
        fsExists fs foundingAcceptedPath = true →
        promoteFoundingMain H fs
          = .err "Founding document is already accepted (.founding.✅)." fs []) := by
  constructor
  · intro H fs p h
    unfold promoteArticleMain
    simp [h]
  · intro H fs h
    unfold promoteFoundingMain discoverFounding
    simp [h]

/-- Witness for C3 (amended) at concrete one-file filesystems. -/
theorem promote_rerun_behavior_witness :
    (fsExists [("a.✅", "x")] (withSuffix "a.📝" ".✅") = true
      ∧ promoteArticleMain (fun s => s) [("a.✅", "x")] "a.📝"
          = .ok [("a.✅", "x")] [] ("promoted_amendment=" ++ withSuffix "a.📝" ".✅"))
    ∧ (fsExists [(foundingAcceptedPath, "x")] foundingAcceptedPath = true
      ∧ promoteFoundingMain (fun s => s) [(foundingAcceptedPath, "x")]
          = .err "Founding document is already accepted (.founding.✅)."
              [(foundingAcceptedPath, "x")] []) :=
  ⟨⟨by decide, promote_rerun_behavior.1 (fun s => s) [("a.✅", "x")] "a.📝" (by decide)⟩,
    ⟨by decide, promote_rerun_behavior.2 (fun s => s) [(foundingAcceptedPath, "x")] (by decide)⟩⟩

/-- C3 counterexample: with the accepted founding record on disk,
re-running `promote_founding.main` reports an error, not the claimed
no-op success. -/
theorem promote_founding_rerun_errs :
    fsExists [(foundingAcceptedPath, "x")] foundingAcceptedPath = true
    ∧ (promoteFoundingMain (fun s => s) [(foundingAcceptedPath, "x")]).isOk = false := by
  exact ⟨by decide, by decide⟩

/-! ## C2: the stale-marking cascade -/

theorem fsRead?_write_ne (fs : FS) (p c p' : String) (h : p' ≠ p) :
    fsRead? (fsWrite fs p c) p' = fsRead? fs p' :=
  dictGet?_set_ne fs p c p' h

theorem fsRead?_rename_ne (fs : FS) (src dst p' : String)
    (h1 : p' ≠ src) (h2 : p' ≠ dst) :
    fsRead? (fsRename fs src dst) p' = fsRead? fs p' := by
  unfold fsRename
  cases fsRead? fs src with
  | none => rfl
  | some c =>
    show dictGet? (dictSet (dictDel fs src) dst c) p' = _
    rw [dictGet?_set_ne _ _ _ _ h2, dictGet?_del_ne _ _ _ h1]
    rfl

theorem markLawStale_spec (fs : FS) (t : List FsEvent) (rel lawText : String)
    (hlaw : fsRead? fs lawActivePath = some lawText)
    (hwf : (parseFrontmatter lawText).1 ≠ "") :
    markLawStale fs t rel
      = (fsRename (fsWrite fs lawActivePath (staleLawContent lawText rel))
          lawActivePath lawResolvingPath,
        t ++ [FsEvent.write lawActivePath (staleLawContent lawText rel)]
          ++ [FsEvent.rename lawActivePath lawResolvingPath]) := by
  unfold markLawStale
  rw [hlaw]
  simp [hwf]

/-- The quoted relative path stored in `stale_amendment_path` is a clean
header value whenever the path has no newline. -/
theorem quoted_clean (rel : String) (hrel : '\n' ∉ rel.data) :
    CleanVal ("\"" ++ rel ++ "\"") := by
  have hdata : ("\"" ++ rel ++ "\"").data = '"' :: (rel.data ++ ['"']) := by
    simp [String.data_append]
  constructor
  · apply stripL_of_stripped
    · intro c hc
      rw [hdata] at hc
      simp only [List.head?_cons, Option.some.injEq] at hc
      rw [← hc]
      decide
    · intro c hc
      rw [hdata, getLast?_cons_ne_nil _ _ (by simp),
        List.getLast?_append_cons rel.data '"' []] at hc
      simp only [List.getLast?_singleton, Option.some.injEq] at hc
      rw [← hc]
      decide
  · rw [hdata]
    intro hmem
    rcases List.mem_cons.mp hmem with h1 | h1
    · exact absurd h1 (by decide)
    · rcases List.mem_append.mp h1 with h2 | h2
      · exact hrel h2
      · exact absurd (List.mem_singleton.mp h2) (by decide)

/-- On a law whose header lacks the stale keys, the content written by
`mark_law_stale` has a header containing neither `stale_reason` nor
`stale_amendment_path`. -/
theorem staleLawContent_header_none (lawText rel : String)
    (hwf : (parseFrontmatter lawText).1 ≠ "")
    (hrel : '\n' ∉ rel.data)
    (hsr : "stale_reason" ∉ headerOrderOf lawText)
    (hsap : "stale_amendment_path" ∉ headerOrderOf lawText) :
    dictGet? (headerOf (staleLawContent lawText rel)) "stale_reason" = none
    ∧ dictGet? (headerOf (staleLawContent lawText rel)) "stale_amendment_path" = none := by
  have hpre : (parseFrontmatter lawText).1 = "---\n" := by
    rcases parseFrontmatter_eq_or lawText with h | h
    · rw [h] at hwf
      exact absurd rfl hwf
    · exact h
  obtain ⟨halign, hnodup, hclean⟩ := parseMap_inv (parseFrontmatter lawText).2.1
  have hm3clean : ∀ kv ∈ dictDel (dictSet
      (dictSet (parseMap (parseFrontmatter lawText).2.1).1 "stale_reason" "amendment_accepted")
      "stale_amendment_path" ("\"" ++ rel ++ "\"")) "status", CleanPair kv := by
    intro kv hkv
    have hkv2 := List.mem_of_mem_filter hkv
    rcases mem_of_mem_dictSet hkv2 with h1 | h1
    · rcases mem_of_mem_dictSet h1 with h2 | h2
      · exact hclean kv h2
      · rw [h2]
        constructor
        · show CleanKey "stale_reason"
          exact ⟨by decide, by decide, by decide⟩
        · show CleanVal "amendment_accepted"
          exact ⟨by decide, by decide⟩
    · rw [h1]
      constructor
      · show CleanKey "stale_amendment_path"
        exact ⟨by decide, by decide, by decide⟩
      · show CleanVal ("\"" ++ rel ++ "\"")
        exact quoted_clean rel hrel
  have ho'nodup : ((parseMap (parseFrontmatter lawText).2.1).2.erase "status").Nodup :=
    hnodup.erase _
  have hsafe := serializeHeaderLines_safe _
    ((parseMap (parseFrontmatter lawText).2.1).2.erase "status") hm3clean
  have hparse := parseMap_of_serialized _
    ((parseMap (parseFrontmatter lawText).2.1).2.erase "status") ho'nodup hm3clean
  have hcontent : staleLawContent lawText rel
      = writeMapContent "---\n" (parseFrontmatter lawText).2.2
          (dictDel (dictSet (dictSet (parseMap (parseFrontmatter lawText).2.1).1
              "stale_reason" "amendment_accepted")
            "stale_amendment_path" ("\"" ++ rel ++ "\"")) "status")
          ((parseMap (parseFrontmatter lawText).2.1).2.erase "status") := by
    unfold staleLawContent
    dsimp only
    rw [hpre]
  rw [hcontent]
  unfold headerOf writeMapContent
  rw [parseFrontmatter_mk _ _ hsafe]
  dsimp only
  rw [hparse]
  constructor <;>
  · rw [dictGet?_eq_none_iff]
    intro hmem
    rw [List.map_map] at hmem
    obtain ⟨k, hk, hke⟩ := List.mem_map.mp hmem
    have hko : k ∈ ((parseMap (parseFrontmatter lawText).2.1).2.erase "status") :=
      List.mem_of_mem_filter hk
    have hko2 := List.mem_of_mem_erase hko
    first
    | exact hsr (show "stale_reason" ∈ headerOrderOf lawText from (by
        show "stale_reason" ∈ (parseMap (parseFrontmatter lawText).2.1).2
        rw [show k = "stale_reason" from hke] at hko2
        exact hko2))
    | exact hsap (show "stale_amendment_path" ∈ headerOrderOf lawText from (by
        show "stale_amendment_path" ∈ (parseMap (parseFrontmatter lawText).2.1).2
        rw [show k = "stale_amendment_path" from hke] at hko2
        exact hko2))

theorem fs_rename_write_spec (fs2 : FS) (src dst c : String) (h : src ≠ dst) :
    fsExists (fsRename (fsWrite fs2 src c) src dst) src = false
    ∧ fsRead? (fsRename (fsWrite fs2 src c) src dst) dst = some c := by
  have hread : fsRead? (fsWrite fs2 src c) src = some c := dictGet?_set_self _ _ _
  unfold fsRename
  rw [hread]
  constructor
  · show (dictGet? (dictSet (dictDel (fsWrite fs2 src c) src) dst c) src).isSome = false
    rw [dictGet?_set_ne _ _ _ _ h, dictGet?_del_self]
    rfl
  · exact dictGet?_set_self _ _ _

/-- C2 (amended): after every successful promotion with the law record
active and well-formed, the law is renamed from the active to the
resolving decoration and rewritten to the output of `mark_law_stale`.
The in-memory header map is given `stale_reason = amendment_accepted`
(not `record_accepted`) plus the triggering record's quoted path; no
pre-transition fingerprint is recorded anywhere; and since
`promote_article.write_map` serialises only keys already present in the
header's order list, a law whose header lacked the stale keys is written
with *neither* field present. -/
theorem promote_marks_law_resolving
    (H : String → String) (fs : FS) (p lawText : String) (fs' : FS)
    (t : List FsEvent) (out : String)
    (hacc : fsExists fs (withSuffix p ".✅") = false)
    (hlaw : fsRead? fs lawActivePath = some lawText)
    (hlawwf : (parseFrontmatter lawText).1 ≠ "")
    (hok : promoteArticleMain H fs p = .ok fs' t out) :
    fsExists fs' lawActivePath = false
    ∧ fsRead? fs' lawResolvingPath = some (staleLawContent lawText (withSuffix p ".✅"))
    ∧ dictGet? (dictSet (dictSet (headerOf lawText) "stale_reason" "amendment_accepted")
        "stale_amendment_path" ("\"" ++ withSuffix p ".✅" ++ "\"")) "stale_reason"
        = some "amendment_accepted"
    ∧ (∀ rel, '\n' ∉ rel.data →
        "stale_reason" ∉ headerOrderOf lawText →
        "stale_amendment_path" ∉ headerOrderOf lawText →
        dictGet? (headerOf (staleLawContent lawText rel)) "stale_reason" = none
        ∧ dictGet? (headerOf (staleLawContent lawText rel)) "stale_amendment_path" = none) := by
  have hvalue : dictGet? (dictSet (dictSet (headerOf lawText) "stale_reason" "amendment_accepted")
      "stale_amendment_path" ("\"" ++ withSuffix p ".✅" ++ "\"")) "stale_reason"
      = some "amendment_accepted" := by
    rw [dictGet?_set_ne _ _ _ _ (by decide), dictGet?_set_self]
  have hnone := fun rel hrel hsr hsap =>
    staleLawContent_header_none lawText rel hlawwf hrel hsr hsap
  unfold promoteArticleMain at hok
  simp only [hacc, Bool.false_eq_true, if_false] at hok
  by_cases hex : fsExists fs p = true
  · rw [hex] at hok
    simp only [Bool.not_true, Bool.false_eq_true, if_false] at hok
    by_cases hsuf : pathSuffix p = ".📝"
    · rw [if_neg (by simp [hsuf])] at hok
      by_cases hpre : (parseFrontmatter ((fsRead? fs p).getD "")).1 = ""
      · rw [if_pos hpre] at hok
        exact absurd hok (by simp)
      · rw [if_neg hpre] at hok
        by_cases hst : pyLower (stripQuotes (dictGetD
            (parseMap (parseFrontmatter ((fsRead? fs p).getD "")).2.1).1 "status" "")) = "review"
        · rw [if_neg (by simp [hst])] at hok
          by_cases hap : stripQuotes (dictGetD
              (parseMap (parseFrontmatter ((fsRead? fs p).getD "")).2.1).1 "apply_ok_at" "")
              = normalizedBodyHash H (parseFrontmatter ((fsRead? fs p).getD "")).2.2
          · rw [if_neg (by simp [hap])] at hok
            injection hok with h1 h2 h3
            have hp_ne_law : lawActivePath ≠ p := by
              intro e
              rw [← e] at hsuf
              exact absurd hsuf (by decide)
            have hacc_ne_law : lawActivePath ≠ withSuffix p ".✅" := by
              intro e
              rw [← e] at hacc
              rw [show fsExists fs lawActivePath = (fsRead? fs lawActivePath).isSome from rfl,
                hlaw] at hacc
              simp at hacc
            have hlaw2 : ∀ c, fsRead? (fsRename (fsWrite fs p c) p (withSuffix p ".✅"))
                lawActivePath = some lawText := by
              intro c
              rw [fsRead?_rename_ne _ _ _ _ hp_ne_law hacc_ne_law,
                fsRead?_write_ne _ _ _ _ hp_ne_law]
              exact hlaw
            rw [markLawStale_spec _ _ _ lawText (hlaw2 _) hlawwf] at h1
            dsimp only at h1
            rw [← h1]
            exact ⟨(fs_rename_write_spec _ _ _ _ (by decide)).1,
              (fs_rename_write_spec _ _ _ _ (by decide)).2, hvalue, hnone⟩
          · rw [if_pos (by simp [hap])] at hok
            exact absurd hok (by simp)
        · rw [if_pos (by simp [hst])] at hok
          exact absurd hok (by simp)
    · rw [if_pos (by simp [hsuf])] at hok
      exact absurd hok (by simp)
  · have hfalse : fsExists fs p = false := by
      cases hq : fsExists fs p
      · rfl
      · exact absurd hq hex
    rw [hfalse] at hok
    simp at hok

/-- Witness for C2 (amended): a concrete promotion against an active law
with header `amendments_hash: "Z"`. -/
theorem promote_marks_law_resolving_witness :
    fsExists [("A.📝", "---\nstatus: review\napply_ok_at: h0\n---\nB"),
        (".constitution/LAW.✅", "---\namendments_hash: \"Z\"\n---\nlaw")]
      (withSuffix "A.📝" ".✅") = false
    ∧ promoteArticleMain (fun _ => "h0")
        [("A.📝", "---\nstatus: review\napply_ok_at: h0\n---\nB"),
         (".constitution/LAW.✅", "---\namendments_hash: \"Z\"\n---\nlaw")] "A.📝"
      = .ok [("A.✅", "---\napply_ok_at: h0\n---\nB"),
             (".constitution/LAW.⏳", "---\namendments_hash: \"Z\"\n---\nlaw")]
          [.write "A.📝" "---\napply_ok_at: h0\n---\nB",
           .rename "A.📝" "A.✅",
           .write ".constitution/LAW.✅" "---\namendments_hash: \"Z\"\n---\nlaw",
           .rename ".constitution/LAW.✅" ".constitution/LAW.⏳"]
          "promoted_amendment=A.✅"
    ∧ (fsExists [("A.✅", "---\napply_ok_at: h0\n---\nB"),
          (".constitution/LAW.⏳", "---\namendments_hash: \"Z\"\n---\nlaw")]
        lawActivePath = false
      ∧ fsRead? [("A.✅", "---\napply_ok_at: h0\n---\nB"),
          (".constitution/LAW.⏳", "---\namendments_hash: \"Z\"\n---\nlaw")]
          lawResolvingPath
        = some (staleLawContent "---\namendments_hash: \"Z\"\n---\nlaw" (withSuffix "A.📝" ".✅"))
      ∧ dictGet? (dictSet (dictSet (headerOf "---\namendments_hash: \"Z\"\n---\nlaw")
            "stale_reason" "amendment_accepted")
          "stale_amendment_path" ("\"" ++ withSuffix "A.📝" ".✅" ++ "\"")) "stale_reason"
          = some "amendment_accepted"
      ∧ (∀ rel, '\n' ∉ rel.data →
          "stale_reason" ∉ headerOrderOf "---\namendments_hash: \"Z\"\n---\nlaw" →
          "stale_amendment_path" ∉ headerOrderOf "---\namendments_hash: \"Z\"\n---\nlaw" →
          dictGet? (headerOf (staleLawContent "---\namendments_hash: \"Z\"\n---\nlaw" rel))
              "stale_reason" = none
          ∧ dictGet? (headerOf (staleLawContent "---\namendments_hash: \"Z\"\n---\nlaw" rel))
              "stale_amendment_path" = none)) :=
  ⟨by decide, by decide,
    promote_marks_law_resolving (fun _ => "h0")
      [("A.📝", "---\nstatus: review\napply_ok_at: h0\n---\nB"),
       (".constitution/LAW.✅", "---\namendments_hash: \"Z\"\n---\nlaw")]
      "A.📝" "---\namendments_hash: \"Z\"\n---\nlaw"
      [("A.✅", "---\napply_ok_at: h0\n---\nB"),
       (".constitution/LAW.⏳", "---\namendments_hash: \"Z\"\n---\nlaw")]
      [.write "A.📝" "---\napply_ok_at: h0\n---\nB",
       .rename "A.📝" "A.✅",
       .write ".constitution/LAW.✅" "---\namendments_hash: \"Z\"\n---\nlaw",
       .rename ".constitution/LAW.✅" ".constitution/LAW.⏳"]
      "promoted_amendment=A.✅"
      (by decide) (by decide) (by decide) (by decide)⟩

/-- C2 counterexample: in the same concrete promotion the law file ends
up decorated resolving, but its written header has *no* `stale_reason`
field at all — in particular it does not equal `record_accepted` — and
carries no pre-transition fingerprint diagnostic. -/
theorem promote_stale_reason_not_recorded :
    ((promoteArticleMain (fun _ => "h0")
        [("A.📝", "---\nstatus: review\napply_ok_at: h0\n---\nB"),
         (".constitution/LAW.✅", "---\namendments_hash: \"Z\"\n---\nlaw")] "A.📝").isOk = true)
    ∧ fsExists ((promoteArticleMain (fun _ => "h0")
        [("A.📝", "---\nstatus: review\napply_ok_at: h0\n---\nB"),
         (".constitution/LAW.✅", "---\namendments_hash: \"Z\"\n---\nlaw")] "A.📝").fsOf)
        lawResolvingPath = true
    ∧ dictGet? (headerOf ((fsRead? ((promoteArticleMain (fun _ => "h0")
        [("A.📝", "---\nstatus: review\napply_ok_at: h0\n---\nB"),
         (".constitution/LAW.✅", "---\namendments_hash: \"Z\"\n---\nlaw")] "A.📝").fsOf)
          lawResolvingPath).getD "")) "stale_reason" = none
    ∧ dictGet? (headerOf ((fsRead? ((promoteArticleMain (fun _ => "h0")
        [("A.📝", "---\nstatus: review\napply_ok_at: h0\n---\nB"),
         (".constitution/LAW.✅", "---\namendments_hash: \"Z\"\n---\nlaw")] "A.📝").fsOf)
          lawResolvingPath).getD "")) "stale_since_hash" = none := by
  refine ⟨by decide, by decide, by decide, by decide⟩

/-! ## C5: the LAW-file token gate -/

/-- C5: a direct write targeting a law record is allowed only when the
conversation already holds, or can claim, a pre-minted token: a missing
or unreadable `.runtime.json` denies fail-closed; with a readable ledger
the gate allows iff the conversation id is nonempty and either already
bound or a pending token exists; claiming pops exactly one pending token
and binds the conversation, after which re-invocation is allowed
unconditionally with no further consumption. -/
theorem law_gate_token_protocol :
    (∀ cid, lawGate none cid
        = (.deny "Constitutional law: LAW files are derived artifacts. No authorization token found (.runtime.json missing).", none)
      ∧ lawGate (some none) cid
        = (.deny "Constitutional law: LAW files are derived artifacts. Authorization state unreadable.", none))
    ∧ (∀ (r : Runtime) (cid : String),
        ((lawGate (some (some r)) cid).1.isAllow = true ↔
          cid ≠ "" ∧ (dictMem r.authorized cid = true ∨ r.pending ≠ [])))
    ∧ (∀ (r : Runtime) (cid token : String) (rest : List String),
        cid ≠ "" → dictMem r.authorized cid = false → r.pending = token :: rest →
        lawGate (some (some r)) cid
          = (.allow, some ⟨dictSet r.authorized cid token, rest⟩)
        ∧ lawGate (some (some ⟨dictSet r.authorized cid token, rest⟩)) cid
          = (.allow, some ⟨dictSet r.authorized cid token, rest⟩)) := by
  refine ⟨fun cid => ⟨rfl, rfl⟩, ?_, ?_⟩
  · intro r cid
    by_cases hcid : cid = ""
    · subst hcid
      cases hq : r.pending with
      | nil => simp [lawGate, hq, GateDecision.isAllow]
      | cons t rest => simp [lawGate, hq, GateDecision.isAllow]
    · by_cases hmem : dictMem r.authorized cid = true
      · simp [lawGate, hcid, hmem, GateDecision.isAllow]
      · cases hq : r.pending with
        | nil => simp [lawGate, hcid, hmem, hq, GateDecision.isAllow]
        | cons t rest => simp [lawGate, hcid, hmem, hq, GateDecision.isAllow]
  · intro r cid token rest hcid hmem hp
    have hmem2 : dictMem (dictSet r.authorized cid token) cid = true := by
      show (dictGet? (dictSet r.authorized cid token) cid).isSome = true
      rw [dictGet?_set_self]
      rfl
    constructor
    · unfold lawGate
      dsimp only
      rw [hp]
      simp [hcid, hmem]
    · unfold lawGate
      dsimp only
      simp [hcid, hmem2]

/-- Witness for C5 at a concrete ledger: one pending token, empty
binding table, conversation "c". -/
theorem law_gate_token_protocol_witness :
    ((lawGate (some (some ⟨[], ["tok"]⟩)) "c").1.isAllow = true ↔
      "c" ≠ "" ∧ (dictMem (Runtime.mk [] ["tok"]).authorized "c" = true ∨
        (Runtime.mk [] ["tok"]).pending ≠ []))
    ∧ ("c" ≠ "" ∧ dictMem (Runtime.mk [] ["tok"]).authorized "c" = false)
    ∧ (lawGate (some (some ⟨[], ["tok"]⟩)) "c"
        = (.allow, some ⟨dictSet [] "c" "tok", []⟩)
      ∧ lawGate (some (some ⟨dictSet [] "c" "tok", []⟩)) "c"
        = (.allow, some ⟨dictSet [] "c" "tok", []⟩)) :=
  ⟨law_gate_token_protocol.2.1 ⟨[], ["tok"]⟩ "c",
    ⟨by decide, by decide⟩,
    law_gate_token_protocol.2.2 ⟨[], ["tok"]⟩ "c" "tok" []
      (by decide) (by decide) rfl⟩

/-! ## C10: the verification pass on an active law -/

/-- C10: when the active law file's bytes decode (any string), the
verification pass performs no rename at all; an absent or malformed
frontmatter block parses to an empty header map and yields the
`HASH_MISMATCH` failure outcome (the `RESULT=FAIL` report) with the file
left in place; the rename-to-corrupted branch is taken exactly when
reading the file raises (`read? = none`). -/
theorem verify_active_law_never_renames :
    (∀ text currentHash : String,
      (verifyActiveLaw (some text) currentHash).2 = []
      ∧ ((parseFrontmatter text).1 = "" →
          readFrontmatterVK text = []
          ∧ (verifyActiveLaw (some text) currentHash).1 = .hashMismatch none currentHash))
    ∧ (∀ (read? : Option String) (hash : String),
        (verifyActiveLaw read? hash).2 ≠ [] ↔ read? = none) := by
  constructor
  · intro text currentHash
    constructor
    · cases hq : dictGet? (readFrontmatterVK text) "amendments_hash" with
      | none => simp [verifyActiveLaw, hq]
      | some stored =>
        by_cases he : stored = currentHash <;> simp [verifyActiveLaw, hq, he]
    · intro hpre
      have hempty : readFrontmatterVK text = [] := by
        unfold readFrontmatterVK
        dsimp only
        rw [if_pos hpre]
      refine ⟨hempty, ?_⟩
      simp [verifyActiveLaw, hempty, dictGet?]
  · intro read? hash
    cases read? with
    | none => simp [verifyActiveLaw]
    | some text =>
      constructor
      · intro htr
        exfalso
        apply htr
        cases hq : dictGet? (readFrontmatterVK text) "amendments_hash" with
        | none => simp [verifyActiveLaw, hq]
        | some stored =>
          by_cases he : stored = hash <;> simp [verifyActiveLaw, hq, he]
      · intro he
        exact absurd he (by simp)

/-- Witness for C10 on a law file with no frontmatter at all. -/
theorem verify_active_law_never_renames_witness :
    ((verifyActiveLaw (some "just a body") "h").2 = []
      ∧ ((parseFrontmatter "just a body").1 = "" →
          readFrontmatterVK "just a body" = []
          ∧ (verifyActiveLaw (some "just a body") "h").1 = .hashMismatch none "h"))
    ∧ ((parseFrontmatter "just a body").1 = ""
      ∧ ((verifyActiveLaw (some "just a body") "h").2 ≠ [] ↔
          (some "just a body" : Option String) = none)) :=
  ⟨verify_active_law_never_renames.1 "just a body" "h",
    by decide,
    verify_active_law_never_renames.2 (some "just a body") "h"⟩

/-! ## C7: frontmatter leases -/

theorem writeFrontmatterField_spec (path : String) (lines : List String)
    (body field : String) (v? : Option String)
    (hsafe : ∀ l ∈ lines, '\n' ∉ l.data ∧ l ≠ "---")
    (hlast : lines.getLast? ≠ some "") :
    writeFrontmatterField path ("---\n" ++ joinNl lines ++ "\n---\n" ++ body) field v?
      = ("---\n" ++ joinNl (rewriteFieldLines lines field v?) ++ ("\n---\n" ++ body),
         [.write (withSuffix path ".tmp")
            ("---\n" ++ joinNl (rewriteFieldLines lines field v?) ++ ("\n---\n" ++ body)),
          .rename (withSuffix path ".tmp") path]) := by
  have hdata : ("---\n" ++ joinNl lines ++ "\n---\n" ++ body).data
      = "---\n".data ++ ((joinNl lines).data ++ "\n---\n".data ++ body.data) := by
    simp [String.data_append]
  have hdrop4 : ("---\n".data ++ ((joinNl lines).data ++ "\n---\n".data ++ body.data)).drop 4
      = (joinNl lines).data ++ "\n---\n".data ++ body.data := by
    rw [show (4 : Nat) = "---\n".data.length from rfl, List.drop_left]
  have hfind : findFrom "\n---\n".data
      ("---\n".data ++ ((joinNl lines).data ++ "\n---\n".data ++ body.data)) 4
      = some ((joinNl lines).data.length + 4) := by
    unfold findFrom
    rw [hdrop4, findIdx_delim_join lines body.data hsafe]
    rfl
  have htake : (((joinNl lines).data ++ "\n---\n".data ++ body.data).take
      ((joinNl lines).data.length + 4 - 4)) = (joinNl lines).data := by
    rw [show (joinNl lines).data.length + 4 - 4 = (joinNl lines).data.length by omega]
    rw [List.append_assoc, List.take_left]
  have hdropRest : ("---\n".data ++ ((joinNl lines).data ++ "\n---\n".data ++ body.data)).drop
      ((joinNl lines).data.length + 4) = "\n---\n".data ++ body.data := by
    rw [show "---\n".data ++ ((joinNl lines).data ++ "\n---\n".data ++ body.data)
        = ("---\n".data ++ (joinNl lines).data) ++ ("\n---\n".data ++ body.data) by simp]
    rw [show (joinNl lines).data.length + 4
        = ("---\n".data ++ (joinNl lines).data).length by simp [List.length_append]]
    exact List.drop_left _ _
  unfold writeFrontmatterField
  rw [hdata]
  rw [if_pos (isPreL_append_self "---\n".data _)]
  rw [hfind]
  dsimp only
  rw [show (['-', '-', '-', '\n'] : List Char) = "---\n".data from rfl,
    show (['\n', '-', '-', '-', '\n'] : List Char) = "\n---\n".data from rfl,
    hdrop4, htake, hdropRest]
  have hmk : (⟨(joinNl lines).data⟩ : String) = joinNl lines := rfl
  have hmkRest : (⟨"\n---\n".data ++ body.data⟩ : String) = "\n---\n" ++ body := by
    apply String.ext
    simp [String.data_append]
  rw [hmk, hmkRest, splitlines_joinNl lines (fun l hl => (hsafe l hl).1) hlast]

/-- `parse_frontmatter` of `hook_stop_inject_stale_law` on a rebuilt
record text. -/
theorem parseFrontmatterHS_mk (lines : List String) (body : String)
    (hsafe : ∀ l ∈ lines, '\n' ∉ l.data ∧ l ≠ "---")
    (hlast : lines.getLast? ≠ some "") :
    parseFrontmatterHS ("---\n" ++ joinNl lines ++ "\n---\n" ++ body)
      = (lines.foldl hsParseLine [], pyStrip body) := by
  have hdata : ("---\n" ++ joinNl lines ++ "\n---\n" ++ body).data
      = "---\n".data ++ ((joinNl lines).data ++ "\n---\n".data ++ body.data) := by
    simp [String.data_append]
  have hdrop4 : ("---\n".data ++ ((joinNl lines).data ++ "\n---\n".data ++ body.data)).drop 4
      = (joinNl lines).data ++ "\n---\n".data ++ body.data := by
    rw [show (4 : Nat) = "---\n".data.length from rfl, List.drop_left]
  have hfind : findFrom "\n---\n".data
      ("---\n".data ++ ((joinNl lines).data ++ "\n---\n".data ++ body.data)) 4
      = some ((joinNl lines).data.length + 4) := by
    unfold findFrom
    rw [hdrop4, findIdx_delim_join lines body.data hsafe]
    rfl
  have htake : (((joinNl lines).data ++ "\n---\n".data ++ body.data).take
      ((joinNl lines).data.length + 4 - 4)) = (joinNl lines).data := by
    rw [show (joinNl lines).data.length + 4 - 4 = (joinNl lines).data.length by omega]
    rw [List.append_assoc, List.take_left]
  have hdropB : ("---\n".data ++ ((joinNl lines).data ++ "\n---\n".data ++ body.data)).drop
      ((joinNl lines).data.length + 4 + 5) = body.data := by
    rw [show "---\n".data ++ ((joinNl lines).data ++ "\n---\n".data ++ body.data)
        = ("---\n".data ++ (joinNl lines).data ++ "\n---\n".data) ++ body.data by simp]
    rw [show (joinNl lines).data.length + 4 + 5
        = ("---\n".data ++ (joinNl lines).data ++ "\n---\n".data).length by
      simp [List.length_append]]
    exact List.drop_left _ _
  unfold parseFrontmatterHS
  rw [hdata]
  rw [if_pos (isPreL_append_self "---\n".data _)]
  rw [hfind]
  dsimp only
  rw [show (['-', '-', '-', '\n'] : List Char) = "---\n".data from rfl,
    show (['\n', '-', '-', '-', '\n'] : List Char) = "\n---\n".data from rfl,
    hdrop4, htake, hdropB]
  rw [show (⟨(joinNl lines).data⟩ : String) = joinNl lines from rfl,
    splitlines_joinNl lines (fun l hl => (hsafe l hl).1) hlast]

theorem mem_of_mem_head? {α : Type} {a : α} {l : List α} (h : a ∈ l.head?) : a ∈ l := by
  cases l with
  | nil => simp at h
  | cons b bs =>
    simp only [List.head?_cons, Option.mem_def, Option.some.injEq] at h
    simp [h]

theorem stripChar_of_not_mem (c : Char) (s : String) (h : c ∉ s.data) : stripChar c s = s := by
  unfold stripChar
  have h1 : dropLeadingBy (· == c) s.data.reverse = s.data.reverse := by
    apply dropLeadingBy_eq_self
    intro d hd
    have hm : d ∈ s.data := List.mem_reverse.mp (mem_of_mem_head? (by simp [hd]))
    have : ¬ d = c := fun e => h (e ▸ hm)
    simpa using this
  rw [h1, List.reverse_reverse]
  have h2 : dropLeadingBy (· == c) s.data = s.data := by
    apply dropLeadingBy_eq_self
    intro d hd
    have hm : d ∈ s.data := mem_of_mem_head? (by simp [hd])
    have : ¬ d = c := fun e => h (e ▸ hm)
    simpa using this
  exact congrArg String.mk h2

theorem stripChar_wrap (c : Char) (mid : List Char) (h : c ∉ mid) :
    stripChar c ⟨c :: (mid ++ [c])⟩ = ⟨mid⟩ := by
  unfold stripChar
  apply congrArg String.mk
  show dropLeadingBy (· == c) (dropLeadingBy (· == c) (c :: (mid ++ [c])).reverse).reverse = mid
  have hrev : (c :: (mid ++ [c])).reverse = c :: (mid.reverse ++ [c]) := by simp
  rw [hrev]
  have hstep1 : dropLeadingBy (· == c) (c :: (mid.reverse ++ [c]))
      = dropLeadingBy (· == c) (mid.reverse ++ [c]) := by
    simp [dropLeadingBy]
  rw [hstep1]
  cases hrev2 : mid.reverse with
  | nil =>
    have hmid : mid = [] := by
      have := congrArg List.reverse hrev2
      simpa using this
    subst hmid
    simp [dropLeadingBy]
  | cons y ys =>
    have hymem : y ∈ mid := List.mem_reverse.mp (hrev2 ▸ List.mem_cons_self y ys)
    have hyne : ¬ y = c := fun e => h (e ▸ hymem)
    have h2 : dropLeadingBy (· == c) ((y :: ys) ++ [c]) = (y :: ys) ++ [c] := by
      apply dropLeadingBy_eq_self
      intro d hd
      simp only [List.cons_append, List.head?_cons, Option.some.injEq] at hd
      rw [← hd]
      simpa using hyne
    rw [h2]
    have h3 : ((y :: ys) ++ [c]).reverse = c :: (y :: ys).reverse := by simp
    rw [h3]
    have h4 : dropLeadingBy (· == c) (c :: (y :: ys).reverse)
        = dropLeadingBy (· == c) ((y :: ys).reverse) := by
      simp [dropLeadingBy]
    rw [h4, ← hrev2, List.reverse_reverse]
    apply dropLeadingBy_eq_self
    intro d hd
    have hm : d ∈ mid := mem_of_mem_head? (by simp [hd])
    have : ¬ d = c := fun e => h (e ▸ hm)
    simpa using this

theorem quoted_value_parse (iso : String)
    (hq : '"' ∉ iso.data) (hsq : '\'' ∉ iso.data) (hnl : '\n' ∉ iso.data) :
    stripQuotes (pyStrip ("\"" ++ iso ++ "\"")) = iso := by
  have hclean := quoted_clean iso hnl
  have hstrip : pyStrip ("\"" ++ iso ++ "\"") = "\"" ++ iso ++ "\"" := by
    show (⟨stripL ("\"" ++ iso ++ "\"").data⟩ : String) = "\"" ++ iso ++ "\""
    rw [hclean.1]
  rw [hstrip]
  unfold stripQuotes
  have hdata : ("\"" ++ iso ++ "\"").data = '"' :: (iso.data ++ ['"']) := by
    simp [String.data_append]
  have h1 : stripChar '"' ("\"" ++ iso ++ "\"") = ⟨iso.data⟩ := by
    rw [show ("\"" ++ iso ++ "\"") = (⟨'"' :: (iso.data ++ ['"'])⟩ : String) from String.ext hdata]
    exact stripChar_wrap '"' iso.data hq
  rw [h1]
  exact stripChar_of_not_mem '\'' ⟨iso.data⟩ hsq

theorem stripQuotes_wrapped (iso : String)
    (hq : '"' ∉ iso.data) (hsq : '\'' ∉ iso.data) (hnl : '\n' ∉ iso.data) :
    stripQuotes ("\"" ++ iso ++ "\"") = iso := by
  have hclean := quoted_clean iso hnl
  have hstrip : pyStrip ("\"" ++ iso ++ "\"") = "\"" ++ iso ++ "\"" := by
    show (⟨stripL ("\"" ++ iso ++ "\"").data⟩ : String) = "\"" ++ iso ++ "\""
    rw [hclean.1]
  have h := quoted_value_parse iso hq hsq hnl
  rw [hstrip] at h
  exact h

theorem foldl_rewriteFieldStep_nokey (field : String) (v? : Option String)
    (lines : List String) (acc : List String)
    (hno : ∀ l ∈ lines, lineKey l ≠ some field) :
    lines.foldl (rewriteFieldStep field v?) (acc, false) = (acc ++ lines, false) := by
  induction lines generalizing acc with
  | nil => simp
  | cons l rest ih =>
    have hstep : rewriteFieldStep field v? (acc, false) l = (acc ++ [l], false) := by
      unfold rewriteFieldStep
      cases hfi : findIdx [':'] l.data with
      | none => rfl
      | some i =>
        dsimp only
        have hne : ¬ pyStrip ⟨l.data.take i⟩ = field := by
          intro e
          exact hno l (List.mem_cons_self _ _)
            (by unfold lineKey; rw [hfi]; exact congrArg some e)
        rw [if_neg hne]
    rw [List.foldl_cons, hstep,
      ih (acc ++ [l]) (fun l' hl' => hno l' (List.mem_cons_of_mem _ hl'))]
    simp

theorem rewriteFieldLines_nokey (field v : String) (lines : List String)
    (hno : ∀ l ∈ lines, lineKey l ≠ some field) :
    rewriteFieldLines lines field (some v) = lines ++ [field ++ ": " ++ v] := by
  unfold rewriteFieldLines
  rw [foldl_rewriteFieldStep_nokey field (some v) lines [] hno]
  simp

theorem rewriteFieldStep_hit (field tail : String) (acc : List String) (b : Bool)
    (v? : Option String) (hk : CleanKey field) :
    rewriteFieldStep field v? (acc, b) (field ++ ": " ++ tail) =
      match v? with
      | some w => (acc ++ [field ++ ": " ++ w], true)
      | none => (acc, true) := by
  have hdata : (field ++ ": " ++ tail).data = field.data ++ ':' :: ' ' :: tail.data := by
    simp [String.data_append]
  have hf : findIdx [':'] (field ++ ": " ++ tail).data = some field.data.length := by
    rw [hdata]
    exact findIdx_char_append ':' field.data _ hk.2.1
  unfold rewriteFieldStep
  rw [hf]
  dsimp only
  have htake : (field ++ ": " ++ tail).data.take field.data.length = field.data := by
    rw [hdata, List.take_left]
  have hkey : pyStrip ⟨(field ++ ": " ++ tail).data.take field.data.length⟩ = field := by
    rw [htake]
    show (⟨stripL field.data⟩ : String) = field
    rw [hk.1]
  rw [if_pos hkey]

theorem rewriteFieldLines_replace (field tail : String) (lines : List String)
    (v? : Option String) (hk : CleanKey field)
    (hno : ∀ l ∈ lines, lineKey l ≠ some field) :
    rewriteFieldLines (lines ++ [field ++ ": " ++ tail]) field v? =
      match v? with
      | some w => lines ++ [field ++ ": " ++ w]
      | none => lines := by
  unfold rewriteFieldLines
  rw [List.foldl_append, foldl_rewriteFieldStep_nokey field v? lines [] hno]
  rw [List.foldl_cons, List.foldl_nil, rewriteFieldStep_hit field tail _ false v? hk]
  cases v? with
  | none => simp
  | some w => simp

theorem hsParseLine_lineOf (acc : Dict) (k v : String)
    (hk : CleanKey k) (hv : CleanVal v) :
    hsParseLine acc (k ++ ": " ++ v) = dictSet acc k (stripQuotes v) := by
  have hdata : (k ++ ": " ++ v).data = k.data ++ ':' :: ' ' :: v.data := by
    simp [String.data_append]
  have hf : findIdx [':'] (k ++ ": " ++ v).data = some k.data.length := by
    rw [hdata]
    exact findIdx_char_append ':' k.data _ hk.2.1
  unfold hsParseLine
  rw [hf]
  dsimp only
  have htake : (k ++ ": " ++ v).data.take k.data.length = k.data := by
    rw [hdata, List.take_left]
  have hdrop : (k ++ ": " ++ v).data.drop (k.data.length + 1) = ' ' :: v.data := by
    rw [hdata]
    rw [show k.data ++ ':' :: ' ' :: v.data = (k.data ++ [':']) ++ (' ' :: v.data) by simp]
    rw [show k.data.length + 1 = (k.data ++ [':']).length by simp]
    exact List.drop_left _ _
  rw [htake, hdrop]
  have hkey : pyStrip ⟨k.data⟩ = k := by
    show (⟨stripL k.data⟩ : String) = k
    rw [hk.1]
  have hval : pyStrip ⟨' ' :: v.data⟩ = v := by
    show (⟨stripL (' ' :: v.data)⟩ : String) = v
    rw [stripL_cons_ws ' ' v.data (by decide), hv.1]
  rw [hkey, hval]

theorem foldl_hsParseLine_nokey (field : String) (lines : List String) (d : Dict)
    (hno : ∀ l ∈ lines, lineKey l ≠ some field) :
    dictGet? (lines.foldl hsParseLine d) field = dictGet? d field := by
  induction lines generalizing d with
  | nil => rfl
  | cons l rest ih =>
    rw [List.foldl_cons, ih _ (fun l' hl' => hno l' (List.mem_cons_of_mem _ hl'))]
    unfold hsParseLine
    cases hfi : findIdx [':'] l.data with
    | none => rfl
    | some i =>
      dsimp only
      apply dictGet?_set_ne
      intro e
      exact hno l (List.mem_cons_self _ _)
        (by unfold lineKey; rw [hfi]; exact congrArg some e.symm)

theorem str_assoc4 (a b c d : String) : a ++ b ++ (c ++ d) = a ++ b ++ c ++ d := by
  apply String.ext
  simp [String.data_append]

theorem quoted_no_nl (iso : String) (hnl : '\n' ∉ iso.data) :
    '\n' ∉ ("\"" ++ iso ++ "\"").data := by
  have hdata : ("\"" ++ iso ++ "\"").data = '"' :: (iso.data ++ ['"']) := by
    simp [String.data_append]
  rw [hdata]
  intro hmem
  rcases List.mem_cons.mp hmem with h1 | h1
  · exact absurd h1 (by decide)
  · rcases List.mem_append.mp h1 with h2 | h2
    · exact hnl h2
    · rcases List.mem_cons.mp h2 with h3 | h3
      · exact absurd h3 (by decide)
      · exact absurd h3 (by simp)

theorem leaseLine_safe (field v : String) (hk : CleanKey field) (hnlv : '\n' ∉ v.data) :
    '\n' ∉ (field ++ ": " ++ v).data ∧ (field ++ ": " ++ v) ≠ "---"
      ∧ (field ++ ": " ++ v) ≠ "" := by
  have hdata : (field ++ ": " ++ v).data = field.data ++ ':' :: ' ' :: v.data := by
    simp [String.data_append]
  have hcolon : ':' ∈ (field ++ ": " ++ v).data := by
    rw [hdata]
    exact List.mem_append.mpr (Or.inr (List.mem_cons_self _ _))
  refine ⟨?_, ?_, ?_⟩
  · rw [hdata]
    intro hmem
    rcases List.mem_append.mp hmem with h1 | h1
    · exact hk.2.2 h1
    · rcases List.mem_cons.mp h1 with h2 | h2
      · exact absurd h2 (by decide)
      · rcases List.mem_cons.mp h2 with h3 | h3
        · exact absurd h3 (by decide)
        · exact hnlv h3
  · intro e
    rw [e] at hcolon
    exact absurd hcolon (by decide)
  · intro e
    rw [e] at hcolon
    exact absurd hcolon (by decide)

theorem safe_append_lease (lines : List String) (field v : String)
    (hsafe : ∀ l ∈ lines, '\n' ∉ l.data ∧ l ≠ "---")
    (hk : CleanKey field) (hnlv : '\n' ∉ v.data) :
    (∀ l ∈ lines ++ [field ++ ": " ++ v], '\n' ∉ l.data ∧ l ≠ "---")
      ∧ (lines ++ [field ++ ": " ++ v]).getLast? ≠ some "" := by
  obtain ⟨h1, h2, h3⟩ := leaseLine_safe field v hk hnlv
  constructor
  · intro l hl
    rcases List.mem_append.mp hl with hm | hm
    · exact hsafe l hm
    · rcases List.mem_cons.mp hm with he | he
      · exact he ▸ ⟨h1, h2⟩
      · exact absurd he (by simp)
  · rw [List.getLast?_concat]
    intro e
    exact h3 (Option.some.inj e)

theorem readFrontmatterField_appended (lines : List String) (field iso body : String)
    (hsafe : ∀ l ∈ lines, '\n' ∉ l.data ∧ l ≠ "---")
    (hk : CleanKey field)
    (hq : '"' ∉ iso.data) (hsq : '\'' ∉ iso.data) (hnl : '\n' ∉ iso.data) :
    readFrontmatterField
      ("---\n" ++ joinNl (lines ++ [field ++ ": " ++ ("\"" ++ iso ++ "\"")]) ++ "\n---\n" ++ body)
      field = some iso := by
  obtain ⟨hls, hlast⟩ := safe_append_lease lines field _ hsafe hk (quoted_no_nl iso hnl)
  unfold readFrontmatterField
  rw [parseFrontmatterHS_mk _ body hls hlast]
  dsimp only
  rw [List.foldl_append, List.foldl_cons, List.foldl_nil]
  rw [hsParseLine_lineOf _ field _ hk (quoted_clean iso hnl)]
  rw [dictGet?_set_self, stripQuotes_wrapped iso hq hsq hnl]

theorem readFrontmatterField_nokey (lines : List String) (field body : String)
    (hsafe : ∀ l ∈ lines, '\n' ∉ l.data ∧ l ≠ "---")
    (hlast : lines.getLast? ≠ some "")
    (hno : ∀ l ∈ lines, lineKey l ≠ some field) :
    readFrontmatterField ("---\n" ++ joinNl lines ++ "\n---\n" ++ body) field = none := by
  unfold readFrontmatterField
  rw [parseFrontmatterHS_mk lines body hsafe hlast]
  dsimp only
  rw [foldl_hsParseLine_nokey field lines [] hno]
  rfl

/-- C7: the lease protocol of `hook_stop_inject_stale_law`.  On a record
whose well-formed header carries no lease field, `tryAcquire` returns
`acquired`, writing the quoted current timestamp through the
temp-then-rename path so that re-reading the field yields it back;
re-invoked on the resulting record before `lockTimeoutSeconds` have
elapsed since acquisition it returns `foreignActive` and performs no
write; re-invoked once `lockTimeoutSeconds` have elapsed it returns
`reclaimed`, first clearing the stale field and then re-acquiring it
with the caller's timestamp; and the configured timeout is 300
seconds. -/
theorem tryAcquire_lease_protocol
    (parseTime : String → Option Int) (isoOf : Int → String)
    (path body field : String) (lines : List String) (t0 t1 : Int)
    (hsafe : ∀ l ∈ lines, '\n' ∉ l.data ∧ l ≠ "---")
    (hlast : lines.getLast? ≠ some "")
    (hk : CleanKey field)
    (hno : ∀ l ∈ lines, lineKey l ≠ some field)
    (hq0 : '"' ∉ (isoOf t0).data) (hsq0 : '\'' ∉ (isoOf t0).data)
    (hnl0 : '\n' ∉ (isoOf t0).data) (hne0 : isoOf t0 ≠ "")
    (hq1 : '"' ∉ (isoOf t1).data) (hsq1 : '\'' ∉ (isoOf t1).data)
    (hnl1 : '\n' ∉ (isoOf t1).data)
    (hpt : parseTime (isoOf t0) = some t0) :
    tryAcquire parseTime isoOf t0 path
        ("---\n" ++ joinNl lines ++ "\n---\n" ++ body) field
      = (.acquired,
         "---\n" ++ joinNl (lines ++ [field ++ ": " ++ nowIso isoOf t0]) ++ "\n---\n" ++ body,
         [.write (withSuffix path ".tmp")
            ("---\n" ++ joinNl (lines ++ [field ++ ": " ++ nowIso isoOf t0]) ++ "\n---\n" ++ body),
          .rename (withSuffix path ".tmp") path])
    ∧ readFrontmatterField
        ("---\n" ++ joinNl (lines ++ [field ++ ": " ++ nowIso isoOf t0]) ++ "\n---\n" ++ body)
        field = some (isoOf t0)
    ∧ (t1 - t0 < lockTimeoutSeconds →
        tryAcquire parseTime isoOf t1 path
            ("---\n" ++ joinNl (lines ++ [field ++ ": " ++ nowIso isoOf t0]) ++ "\n---\n" ++ body)
            field
          = (.foreignActive,
             "---\n" ++ joinNl (lines ++ [field ++ ": " ++ nowIso isoOf t0]) ++ "\n---\n" ++ body,
             []))
    ∧ (lockTimeoutSeconds ≤ t1 - t0 →
        tryAcquire parseTime isoOf t1 path
            ("---\n" ++ joinNl (lines ++ [field ++ ": " ++ nowIso isoOf t0]) ++ "\n---\n" ++ body)
            field
          = (.reclaimed,
             "---\n" ++ joinNl (lines ++ [field ++ ": " ++ nowIso isoOf t1]) ++ "\n---\n" ++ body,
             [.write (withSuffix path ".tmp") ("---\n" ++ joinNl lines ++ "\n---\n" ++ body),
              .rename (withSuffix path ".tmp") path,
              .write (withSuffix path ".tmp")
                ("---\n" ++ joinNl (lines ++ [field ++ ": " ++ nowIso isoOf t1])
                  ++ "\n---\n" ++ body),
              .rename (withSuffix path ".tmp") path])
        ∧ readFrontmatterField
            ("---\n" ++ joinNl (lines ++ [field ++ ": " ++ nowIso isoOf t1]) ++ "\n---\n" ++ body)
            field = some (isoOf t1))
    ∧ lockTimeoutSeconds = 300 := by
  have hqr0 : nowIso isoOf t0 = "\"" ++ isoOf t0 ++ "\"" := rfl
  have hqr1 : nowIso isoOf t1 = "\"" ++ isoOf t1 ++ "\"" := rfl
  have hnlq0 : '\n' ∉ (nowIso isoOf t0).data := by
    rw [hqr0]
    exact quoted_no_nl (isoOf t0) hnl0
  obtain ⟨hls0, hlast0⟩ := safe_append_lease lines field (nowIso isoOf t0) hsafe hk hnlq0
  have hrff1 : readFrontmatterField
      ("---\n" ++ joinNl (lines ++ [field ++ ": " ++ nowIso isoOf t0]) ++ "\n---\n" ++ body)
      field = some (isoOf t0) := by
    rw [hqr0]
    exact readFrontmatterField_appended lines field (isoOf t0) body hsafe hk hq0 hsq0 hnl0
  have hrff2 : readFrontmatterField
      ("---\n" ++ joinNl (lines ++ [field ++ ": " ++ nowIso isoOf t1]) ++ "\n---\n" ++ body)
      field = some (isoOf t1) := by
    rw [hqr1]
    exact readFrontmatterField_appended lines field (isoOf t1) body hsafe hk hq1 hsq1 hnl1
  have hrff0 : readFrontmatterField ("---\n" ++ joinNl lines ++ "\n---\n" ++ body) field
      = none := readFrontmatterField_nokey lines field body hsafe hlast hno
  have hcl0 : checkLock parseTime t0
      (some ("---\n" ++ joinNl lines ++ "\n---\n" ++ body)) field = .available := by
    unfold checkLock
    dsimp only
    rw [hrff0]
  have hw0 : writeFrontmatterField path ("---\n" ++ joinNl lines ++ "\n---\n" ++ body) field
      (some (nowIso isoOf t0))
      = ("---\n" ++ joinNl (lines ++ [field ++ ": " ++ nowIso isoOf t0]) ++ "\n---\n" ++ body,
         [.write (withSuffix path ".tmp")
            ("---\n" ++ joinNl (lines ++ [field ++ ": " ++ nowIso isoOf t0]) ++ "\n---\n" ++ body),
          .rename (withSuffix path ".tmp") path]) := by
    rw [writeFrontmatterField_spec path lines body field (some (nowIso isoOf t0)) hsafe hlast]
    rw [rewriteFieldLines_nokey field (nowIso isoOf t0) lines hno]
    simp only [str_assoc4]
  refine ⟨?_, hrff1, ?_, ?_, rfl⟩
  · unfold tryAcquire
    rw [hcl0]
    dsimp only
    rw [hw0]
  · intro hlt
    have hcl1 : checkLock parseTime t1
        (some ("---\n" ++ joinNl (lines ++ [field ++ ": " ++ nowIso isoOf t0])
          ++ "\n---\n" ++ body)) field = .locked := by
      unfold checkLock
      dsimp only
      rw [hrff1]
      dsimp only
      rw [if_neg hne0, hpt]
      dsimp only
      rw [if_neg (not_le.mpr hlt)]
    unfold tryAcquire
    rw [hcl1]
  · intro hge
    have hcl1 : checkLock parseTime t1
        (some ("---\n" ++ joinNl (lines ++ [field ++ ": " ++ nowIso isoOf t0])
          ++ "\n---\n" ++ body)) field = .stale := by
      unfold checkLock
      dsimp only
      rw [hrff1]
      dsimp only
      rw [if_neg hne0, hpt]
      dsimp only
      rw [if_pos hge]
    have hw1 : writeFrontmatterField path
        ("---\n" ++ joinNl (lines ++ [field ++ ": " ++ nowIso isoOf t0]) ++ "\n---\n" ++ body)
        field none
        = ("---\n" ++ joinNl lines ++ "\n---\n" ++ body,
           [.write (withSuffix path ".tmp") ("---\n" ++ joinNl lines ++ "\n---\n" ++ body),
            .rename (withSuffix path ".tmp") path]) := by
      rw [writeFrontmatterField_spec path (lines ++ [field ++ ": " ++ nowIso isoOf t0])
        body field none hls0 hlast0]
      rw [rewriteFieldLines_replace field (nowIso isoOf t0) lines none hk hno]
      dsimp only
      simp only [str_assoc4]
    have hw2 : writeFrontmatterField path ("---\n" ++ joinNl lines ++ "\n---\n" ++ body) field
        (some (nowIso isoOf t1))
        = ("---\n" ++ joinNl (lines ++ [field ++ ": " ++ nowIso isoOf t1]) ++ "\n---\n" ++ body,
           [.write (withSuffix path ".tmp")
              ("---\n" ++ joinNl (lines ++ [field ++ ": " ++ nowIso isoOf t1])
                ++ "\n---\n" ++ body),
            .rename (withSuffix path ".tmp") path]) := by
      rw [writeFrontmatterField_spec path lines body field (some (nowIso isoOf t1)) hsafe hlast]
      rw [rewriteFieldLines_nokey field (nowIso isoOf t1) lines hno]
      simp only [str_assoc4]
    refine ⟨?_, hrff2⟩
    unfold tryAcquire
    rw [hcl1]
    dsimp only
    rw [hw1]
    dsimp only
    rw [hw2]
    rfl

theorem tryAcquire_lease_protocol_witness :
    (tryAcquire (fun s => if s = "A" then some 0 else none)
        (fun t => if t = 0 then "A" else "C") 0 ".constitution/LAW.⏳"
        ("---\n" ++ joinNl ["status: law"] ++ "\n---\n" ++ "B") "lease").1 = .acquired
    ∧ (tryAcquire (fun s => if s = "A" then some 0 else none)
        (fun t => if t = 0 then "A" else "C") 100 ".constitution/LAW.⏳"
        ("---\n" ++ joinNl (["status: law"]
          ++ ["lease" ++ ": " ++ nowIso (fun t => if t = 0 then "A" else "C") 0])
          ++ "\n---\n" ++ "B") "lease").1 = .foreignActive
    ∧ (tryAcquire (fun s => if s = "A" then some 0 else none)
        (fun t => if t = 0 then "A" else "C") 400 ".constitution/LAW.⏳"
        ("---\n" ++ joinNl (["status: law"]
          ++ ["lease" ++ ": " ++ nowIso (fun t => if t = 0 then "A" else "C") 0])
          ++ "\n---\n" ++ "B") "lease").1 = .reclaimed := by
  have h100 := tryAcquire_lease_protocol (fun s => if s = "A" then some 0 else none)
    (fun t => if t = 0 then "A" else "C") ".constitution/LAW.⏳" "B" "lease"
    ["status: law"] 0 100
    (by decide) (by decide) (by unfold CleanKey; refine ⟨?_, ?_, ?_⟩ <;> decide) (by decide)
    (by decide) (by decide) (by decide) (by decide)
    (by decide) (by decide) (by decide) (by decide)
  have h400 := tryAcquire_lease_protocol (fun s => if s = "A" then some 0 else none)
    (fun t => if t = 0 then "A" else "C") ".constitution/LAW.⏳" "B" "lease"
    ["status: law"] 0 400
    (by decide) (by decide) (by unfold CleanKey; refine ⟨?_, ?_, ?_⟩ <;> decide) (by decide)
    (by decide) (by decide) (by decide) (by decide)
    (by decide) (by decide) (by decide) (by decide)
  refine ⟨?_, ?_, ?_⟩
  · rw [h100.1]
  · rw [h100.2.2.1 (by decide)]
  · rw [(h400.2.2.2.1 (by decide)).1]

/-- C6 (amended): the lease-field mutations of
`hook_stop_inject_stale_law.write_frontmatter_field` are atomic: on any
input the emitted event trace is either empty (no well-formed header, file
untouched) or exactly a write of the full new content to the `.tmp` sibling
followed by a rename over the record — never a direct write to the record;
the other header rewrites of the subsystem (promotion, stale-marking,
reconciliation) instead write the record path in place. -/
theorem header_rewrite_atomicity (path text field : String) (v? : Option String) :
    (writeFrontmatterField path text field v?).2 = []
      ∨ (writeFrontmatterField path text field v?).2
          = [.write (withSuffix path ".tmp") (writeFrontmatterField path text field v?).1,
             .rename (withSuffix path ".tmp") path] := by
  by_cases h1 : isPreL "---\n".data text.data
  · cases h2 : findFrom "\n---\n".data text.data 4 with
    | none =>
      left
      unfold writeFrontmatterField
      rw [if_pos h1, h2]
    | some second =>
      right
      have h3 : writeFrontmatterField path text field v?
          = ("---\n"
              ++ joinNl (rewriteFieldLines
                    (splitlines ⟨(text.data.drop 4).take (second - 4)⟩) field v?)
              ++ ⟨text.data.drop second⟩,
             [.write (withSuffix path ".tmp")
                ("---\n"
                  ++ joinNl (rewriteFieldLines
                        (splitlines ⟨(text.data.drop 4).take (second - 4)⟩) field v?)
                  ++ ⟨text.data.drop second⟩),
              .rename (withSuffix path ".tmp") path]) := by
        unfold writeFrontmatterField
        rw [if_pos h1, h2]
      rw [h3]
  · left
    unfold writeFrontmatterField
    rw [if_neg h1]

/-- C6 is refuted on the promotion path: a successful `promote_article` run
rewrites both the amendment header and the law header by writing the record
paths directly — its trace contains writes only to the record paths
themselves and no write to any `.tmp` sibling before the renames. -/
theorem promote_header_rewrite_in_place :
    (promoteArticleMain (fun _ => "h0")
        [("A.📝", "---\nstatus: review\napply_ok_at: h0\n---\nB"),
         (".constitution/LAW.✅", "---\namendments_hash: \"Z\"\n---\nlaw")] "A.📝").isOk
      = true
    ∧ (promoteArticleMain (fun _ => "h0")
        [("A.📝", "---\nstatus: review\napply_ok_at: h0\n---\nB"),
         (".constitution/LAW.✅", "---\namendments_hash: \"Z\"\n---\nlaw")] "A.📝").traceOf
      = [.write "A.📝" "---\napply_ok_at: h0\n---\nB",
         .rename "A.📝" "A.✅",
         .write ".constitution/LAW.✅" "---\namendments_hash: \"Z\"\n---\nlaw",
         .rename ".constitution/LAW.✅" ".constitution/LAW.⏳"]
    ∧ ((promoteArticleMain (fun _ => "h0")
        [("A.📝", "---\nstatus: review\napply_ok_at: h0\n---\nB"),
         (".constitution/LAW.✅", "---\namendments_hash: \"Z\"\n---\nlaw")] "A.📝").traceOf.all
        (fun e => match e with
          | .write q _ => q == "A.📝" || q == ".constitution/LAW.✅"
          | .rename _ _ => true
          | .unlink _ => true)) = true := by
  refine ⟨by decide, by decide, by decide⟩

theorem str_foldl_append (l : List String) (a : String) :
    l.foldl (fun r s => r ++ s) a = a ++ l.foldl (fun r s => r ++ s) "" := by
  induction l generalizing a with
  | nil =>
    apply String.ext
    simp [String.data_append, (show ("" : String).data = ([] : List Char) from rfl)]
  | cons x xs ih =>
    rw [List.foldl_cons, List.foldl_cons, ih (a ++ x), ih ("" ++ x)]
    apply String.ext
    simp [String.data_append, (show ("" : String).data = ([] : List Char) from rfl)]

theorem blocksConcat_cons (r : String × String) (rs : List (String × String)) :
    blocksConcat (r :: rs) = hashBlock r.1 r.2 ++ blocksConcat rs := by
  unfold blocksConcat
  rw [List.map_cons]
  unfold String.join
  rw [List.foldl_cons, str_foldl_append]
  apply String.ext
  simp [String.data_append, (show ("" : String).data = ([] : List Char) from rfl)]

theorem sep_inj (c : Char) : ∀ (xs ys u v : List Char), c ∉ xs → c ∉ ys →
    xs ++ c :: u = ys ++ c :: v → xs = ys ∧ u = v := by
  intro xs
  induction xs with
  | nil =>
    intro ys u v _ hys h
    cases ys with
    | nil => simpa using h
    | cons y ys' =>
      simp only [List.nil_append, List.cons_append, List.cons.injEq] at h
      have hc : c ∈ y :: ys' := by
        rw [h.1]
        exact List.mem_cons_self _ _
      exact absurd hc hys
  | cons x xs' ih =>
    intro ys u v hxs hys h
    cases ys with
    | nil =>
      simp only [List.cons_append, List.nil_append, List.cons.injEq] at h
      have hc : c ∈ x :: xs' := by
        rw [← h.1]
        exact List.mem_cons_self _ _
      exact absurd hc hxs
    | cons y ys' =>
      simp only [List.cons_append, List.cons.injEq] at h
      obtain ⟨hxy, hrest⟩ := h
      obtain ⟨h1, h2⟩ := ih ys' u v (fun hm => hxs (List.mem_cons_of_mem _ hm))
        (fun hm => hys (List.mem_cons_of_mem _ hm)) hrest
      exact ⟨by rw [hxy, h1], h2⟩

theorem blocksConcat_inj (recs₁ : List (String × String)) :
    ∀ (recs₂ : List (String × String)),
    recs₁.map Prod.fst = recs₂.map Prod.fst →
    (∀ r ∈ recs₁, '\x1e' ∉ (extractBodyWithoutFrontmatter r.2).data) →
    (∀ r ∈ recs₂, '\x1e' ∉ (extractBodyWithoutFrontmatter r.2).data) →
    blocksConcat recs₁ = blocksConcat recs₂ →
    recs₁.map (fun r => extractBodyWithoutFrontmatter r.2)
      = recs₂.map (fun r => extractBodyWithoutFrontmatter r.2) := by
  induction recs₁ with
  | nil =>
    intro recs₂ hpaths _ _ _
    cases recs₂ with
    | nil => rfl
    | cons b bs => simp at hpaths
  | cons a as ih =>
    intro recs₂ hpaths hsep1 hsep2 h
    cases recs₂ with
    | nil => simp at hpaths
    | cons b bs =>
      obtain ⟨pa, ta⟩ := a
      obtain ⟨pb, tb⟩ := b
      simp only [List.map_cons, List.cons.injEq] at hpaths
      obtain ⟨hp, hps⟩ := hpaths
      subst hp
      rw [blocksConcat_cons, blocksConcat_cons] at h
      have hd := congrArg String.data h
      have hda : (hashBlock (pa, ta).1 (pa, ta).2 ++ blocksConcat as).data
          = ("FILE:".data ++ pa.data ++ ['\n'])
            ++ (((extractBodyWithoutFrontmatter ta).data ++ ['\n'])
              ++ '\x1e' :: ('\n' :: (blocksConcat as).data)) := by
        unfold hashBlock
        simp [String.data_append]
      have hdb : (hashBlock (pa, tb).1 (pa, tb).2 ++ blocksConcat bs).data
          = ("FILE:".data ++ pa.data ++ ['\n'])
            ++ (((extractBodyWithoutFrontmatter tb).data ++ ['\n'])
              ++ '\x1e' :: ('\n' :: (blocksConcat bs).data)) := by
        unfold hashBlock
        simp [String.data_append]
      rw [hda, hdb] at hd
      have hcan := List.append_cancel_left hd
      have hna : '\x1e' ∉ (extractBodyWithoutFrontmatter ta).data ++ ['\n'] := by
        intro hm
        rcases List.mem_append.mp hm with h1 | h1
        · exact hsep1 (pa, ta) (List.mem_cons_self _ _) h1
        · exact absurd h1 (by decide)
      have hnb : '\x1e' ∉ (extractBodyWithoutFrontmatter tb).data ++ ['\n'] := by
        intro hm
        rcases List.mem_append.mp hm with h1 | h1
        · exact hsep2 (pa, tb) (List.mem_cons_self _ _) h1
        · exact absurd h1 (by decide)
      obtain ⟨hbody, hrest⟩ := sep_inj '\x1e' _ _ _ _ hna hnb hcan
      have hbody2 : extractBodyWithoutFrontmatter ta = extractBodyWithoutFrontmatter tb :=
        String.ext (List.append_cancel_right hbody)
      have hrest2 : blocksConcat as = blocksConcat bs := by
        apply String.ext
        injection hrest
      rw [List.map_cons, List.map_cons]
      rw [ih bs hps (fun r hr => hsep1 r (List.mem_cons_of_mem _ hr))
        (fun r hr => hsep2 r (List.mem_cons_of_mem _ hr)) hrest2]
      show extractBodyWithoutFrontmatter ta
          :: List.map (fun r => extractBodyWithoutFrontmatter r.2) bs
        = extractBodyWithoutFrontmatter tb
          :: List.map (fun r => extractBodyWithoutFrontmatter r.2) bs
      rw [hbody2]

theorem hashStream_perm (l₁ l₂ : List (String × String))
    (hperm : l₁.Perm l₂) (hnd : (l₁.map Prod.fst).Nodup) :
    hashStream l₁ = hashStream l₂ := by
  haveI hTot : IsTotal (String × String) (fun a b => a.1 ≤ b.1) :=
    ⟨fun a b => le_total a.1 b.1⟩
  haveI hTr : IsTrans (String × String) (fun a b => a.1 ≤ b.1) :=
    ⟨fun a b c hab hbc => le_trans hab hbc⟩
  haveI hAnti : IsAntisymm (String × String) (fun a b : String × String => a.1 < b.1) :=
    ⟨fun a b hab hba => absurd hba (lt_asymm hab)⟩
  have hp1 : (sortRecords l₁).Perm l₁ := List.perm_insertionSort _ l₁
  have hp2 : (sortRecords l₂).Perm l₂ := List.perm_insertionSort _ l₂
  have hs1 : List.Sorted (fun a b : String × String => a.1 ≤ b.1) (sortRecords l₁) :=
    List.sorted_insertionSort _ l₁
  have hs2 : List.Sorted (fun a b : String × String => a.1 ≤ b.1) (sortRecords l₂) :=
    List.sorted_insertionSort _ l₂
  have hnd1 : ((sortRecords l₁).map Prod.fst).Nodup := ((hp1.map Prod.fst).nodup_iff).mpr hnd
  have hnd2 : ((sortRecords l₂).map Prod.fst).Nodup := by
    have h2 : (l₂.map Prod.fst).Nodup := ((hperm.map Prod.fst).nodup_iff).mp hnd
    exact ((hp2.map Prod.fst).nodup_iff).mpr h2
  have strict : ∀ m : List (String × String),
      List.Sorted (fun a b : String × String => a.1 ≤ b.1) m → (m.map Prod.fst).Nodup →
      List.Sorted (fun a b : String × String => a.1 < b.1) m := by
    intro m hs hn
    have hpn : m.Pairwise (fun a b : String × String => a.1 ≠ b.1) := List.pairwise_map.mp hn
    exact (hs.and hpn).imp (fun h => lt_of_le_of_ne h.1 h.2)
  have heq : sortRecords l₁ = sortRecords l₂ :=
    List.eq_of_perm_of_sorted (hp1.trans (hperm.trans hp2.symm))
      (strict _ hs1 hnd1) (strict _ hs2 hnd2)
  unfold hashStream
  rw [heq]

/-- C4 (amended): the amendments digest is invariant under re-ordering the
record enumeration before path-sorting (for enumerations with distinct
paths); and as long as extracted bodies avoid the `\x1e` separator byte,
the digest input stream determines every record's *stripped* body — so
changing a stripped body changes the stream — while a byte change that only
affects leading/trailing whitespace of a body leaves the digest unchanged. -/
theorem amendments_digest_reorder_and_sensitivity (H : String → String)
    (l₁ l₂ recs₁ recs₂ : List (String × String))
    (hperm : l₁.Perm l₂) (hnd : (l₁.map Prod.fst).Nodup)
    (hpaths : recs₁.map Prod.fst = recs₂.map Prod.fst)
    (hsep1 : ∀ r ∈ recs₁, '\x1e' ∉ (extractBodyWithoutFrontmatter r.2).data)
    (hsep2 : ∀ r ∈ recs₂, '\x1e' ∉ (extractBodyWithoutFrontmatter r.2).data) :
    amendmentsDigest H l₁ = amendmentsDigest H l₂
    ∧ (blocksConcat recs₁ = blocksConcat recs₂ →
        recs₁.map (fun r => extractBodyWithoutFrontmatter r.2)
          = recs₂.map (fun r => extractBodyWithoutFrontmatter r.2)) := by
  constructor
  · unfold amendmentsDigest
    rw [hashStream_perm l₁ l₂ hperm hnd]
  · intro h
    exact blocksConcat_inj recs₁ recs₂ hpaths hsep1 hsep2 h

theorem amendments_digest_reorder_and_sensitivity_witness :
    amendmentsDigest (fun s => s) [("a", "1"), ("b", "2")]
      = amendmentsDigest (fun s => s) [("b", "2"), ("a", "1")]
    ∧ (blocksConcat [("a", "1")] = blocksConcat [("a", "2")] →
        [("a", "1")].map (fun r => extractBodyWithoutFrontmatter r.2)
          = [("a", "2")].map (fun r => extractBodyWithoutFrontmatter r.2)) :=
  amendments_digest_reorder_and_sensitivity (fun s => s)
    [("a", "1"), ("b", "2")] [("b", "2"), ("a", "1")] [("a", "1")] [("a", "2")]
    (List.Perm.swap ("b", "2") ("a", "1") [])
    (by decide) (by decide) (by decide) (by decide)

/-- C4 is refuted on single-byte sensitivity: two enumerations of the same
record whose bodies differ in exactly one byte (a trailing newline versus a
trailing space, same length) feed the identical byte stream into the hash —
bodies are stripped before hashing — so the digest cannot change. -/
theorem digest_insensitive_to_body_byte_change :
    hashStream [("p", "x\n")] = hashStream [("p", "x ")]
    ∧ amendmentsDigest (fun s => s) [("p", "x\n")]
        = amendmentsDigest (fun s => s) [("p", "x ")]
    ∧ ("x\n" : String) ≠ "x "
    ∧ ("x\n" : String).length = ("x " : String).length := by
  refine ⟨by decide, by decide, by decide, by decide⟩

/-- C8 (amended): for a command that mentions a constitutional record, the
Access Gate denies whenever none of its allow branches fires — not read-only,
not on the promotion-script allow-list, not a status-only amendment rename —
whether or not a mutating verb is present; and a command on the
promotion-script allow-list is always allowed, mutating verbs and flags
notwithstanding.  The gate's deny decision keys on the failure of the three
allow branches, not on the mutating-verb scan. -/
theorem shell_gate_verb_rules (root command : String)
    (hm : mentionsConstitutionalFiles root command = true) :
    (isReadOnlyCommand command = false →
      isPromotionScriptCommand command = false →
      isStatusOnlyAmendmentRename root command = false →
      shellGateAllows root command = false)
    ∧ (isPromotionScriptCommand command = true →
        shellGateAllows root command = true) := by
  constructor
  · intro h1 h2 h3
    simp [shellGateAllows, hm, h1, h2, h3]
  · intro h2
    by_cases h1 : isReadOnlyCommand command
    · simp [shellGateAllows, hm, h1]
    · simp [shellGateAllows, hm, h1, h2]

theorem shell_gate_verb_rules_witness :
    mentionsConstitutionalFiles "/w" "rm LAW.✅" = true
    ∧ mutatingTokenMatch "rm LAW.✅" = true
    ∧ shellGateAllows "/w" "rm LAW.✅" = false
    ∧ mentionsConstitutionalFiles "/w"
        "python3 promote_article.py .constitution/amendments/20260101000000.📝" = true
    ∧ shellGateAllows "/w"
        "python3 promote_article.py .constitution/amendments/20260101000000.📝" = true :=
  ⟨by decide, by decide,
   (shell_gate_verb_rules "/w" "rm LAW.✅" (by decide)).1 (by decide) (by decide) (by decide),
   by decide,
   (shell_gate_verb_rules "/w"
      "python3 promote_article.py .constitution/amendments/20260101000000.📝"
      (by decide)).2 (by decide)⟩

/-- C8 is refuted: a compound command whose trailing half deletes an accepted
amendment record carries a mutating verb against an accepted record and
mentions constitutional files, yet the gate allows it — the read-only branch
inspects only the leading binary and the absence of redirection, and the
mutating-verb scan is never consulted once that branch fires. -/
theorem mutating_verb_command_allowed :
    mentionsConstitutionalFiles "/w"
        "cat README.md && rm .constitution/amendments/20260101000000.✅" = true
    ∧ mutatingTokenMatch
        "cat README.md && rm .constitution/amendments/20260101000000.✅" = true
    ∧ shellGateAllows "/w"
        "cat README.md && rm .constitution/amendments/20260101000000.✅" = true := by
  refine ⟨by decide, by decide, by decide⟩

end Slices
